import Mathlib

/-!
My-Wordle: `Vector4` (src/math/vecs/vector4.h)

A shallow embedding of the SSE-backed `Vector4` union and of the operators and
free functions declared in `vector4.h`, together with the IEEE-754 binary32
arithmetic the SSE instructions perform on each lane.

Conventions of the embedding

* An `f32` is its 32-bit pattern (`F32.bits`), so "bit-exact" is Lean equality.
  Arithmetic is round-to-nearest-even with gradual underflow, the default
  MXCSR state (no flush-to-zero, no denormals-are-zero).  NaN operands are
  propagated the way SSE does it: the first NaN operand, made quiet; an
  invalid operation without NaN operands gives the default NaN `0xFFC00000`.
* An `__m128` is four lanes, named by their byte offset divided by four.
* A member function that assigns to `_sse` is a function from the receiver's
  lanes before the call to the receiver's lanes after it, paired with what the
  function returns.
-/

namespace MyWordle

/-! ## binary32 -/

/-- An `f32`, given by its 32-bit pattern. -/
structure F32 where
  bits : Nat
  lt : bits < 4294967296
deriving DecidableEq

namespace F32

/-- The `f32` with the given bit pattern (taken modulo `2^32`). -/
def ofBits (n : Nat) : F32 := ⟨n % 4294967296, Nat.mod_lt _ (by decide)⟩

/-- Bit 31. -/
def sign (a : F32) : Bool := decide (2147483648 ≤ a.bits)

/-- Bits 0..30: biased exponent and fraction, read as one number. -/
def ord (a : F32) : Nat := a.bits % 2147483648

/-- Bits 23..30, the biased exponent. -/
def expField (a : F32) : Nat := a.ord / 8388608

/-- Bits 0..22, the fraction. -/
def manField (a : F32) : Nat := a.ord % 8388608

/-- Exponent field all ones and fraction nonzero. -/
def isNaN (a : F32) : Bool := decide (2139095040 < a.ord)

/-- Exponent field all ones and fraction zero. -/
def isInf (a : F32) : Bool := decide (a.ord = 2139095040)

/-- Either `+0.0f` or `-0.0f`. -/
def isZero (a : F32) : Bool := decide (a.ord = 0)

/-- Neither an infinity nor a NaN. -/
def isFinite (a : F32) : Bool := decide (a.ord < 2139095040)

/-- Assemble a sign bit and the 31 low bits. -/
def ofSignOrd (s : Bool) (o : Nat) : F32 :=
  ofBits ((if s then 2147483648 else 0) + o % 2147483648)

/-- Signed zero. -/
def zero (s : Bool) : F32 := ofSignOrd s 0

/-- Signed infinity. -/
def inf (s : Bool) : F32 := ofSignOrd s 2139095040

/-- The default NaN of SSE (negative quiet NaN with empty payload). -/
def defaultNaN : F32 := ofBits 4290772992

/-- A NaN made quiet: bit 22 set. -/
def quiet (a : F32) : F32 := ofBits (a.bits ||| 4194304)

/-- Integer significand of a finite value (hidden bit included for normals). -/
def mant (a : F32) : Nat :=
  if a.expField = 0 then a.manField else 8388608 + a.manField

/-- Exponent of the unit in the last place of a finite value: the value is
`mant * 2 ^ expo`. -/
def expo (a : F32) : Int := (max a.expField 1 : Nat) - 150

/-- Significand with the sign applied. -/
def signedMant (a : F32) : Int := if a.sign then -(a.mant : Int) else (a.mant : Int)

/-- Halving count: the first argument bounds the number of halvings. -/
def ilog2Aux : Nat → Nat → Nat
  | 0, _ => 0
  | f + 1, n => if n < 2 then 0 else ilog2Aux f (n / 2) + 1

/-- Position of the leading one bit of a nonzero number (floor of the binary
logarithm). -/
def ilog2 (n : Nat) : Nat := ilog2Aux n n

/-- Round `(-1)^s * m * 2^e` to the nearest binary32, ties to even, with
gradual underflow and overflow to infinity. -/
def roundPack (s : Bool) (m : Nat) (e : Int) : F32 :=
  if m = 0 then zero s
  else
    let q : Int := max (e + (ilog2 m : Int) - 23) (-149)
    let sig : Nat :=
      if q ≤ e then m * 2 ^ (e - q).toNat
      else
        let k := (q - e).toNat
        let t := m / 2 ^ k
        let r := m % 2 ^ k
        let h := 2 ^ (k - 1)
        if h < r ∨ (r = h ∧ t % 2 = 1) then t + 1 else t
    ofSignOrd s (min ((q + 149).toNat * 8388608 + sig) 2139095040)

/-- Instruction `mulss` / one lane of `mulps`. -/
def mul (a b : F32) : F32 :=
  if a.isNaN then a.quiet
  else if b.isNaN then b.quiet
  else if a.isInf then (if b.isZero then defaultNaN else inf (Bool.xor a.sign b.sign))
  else if b.isInf then (if a.isZero then defaultNaN else inf (Bool.xor a.sign b.sign))
  else roundPack (Bool.xor a.sign b.sign) (a.mant * b.mant) (a.expo + b.expo)

/-- Instruction `addss` / one lane of `addps`. -/
def add (a b : F32) : F32 :=
  if a.isNaN then a.quiet
  else if b.isNaN then b.quiet
  else if a.isInf then (if b.isInf ∧ a.sign ≠ b.sign then defaultNaN else a)
  else if b.isInf then b
  else
    let e : Int := min a.expo b.expo
    let z : Int := a.signedMant * 2 ^ (a.expo - e).toNat + b.signedMant * 2 ^ (b.expo - e).toNat
    if z = 0 then zero (a.sign && b.sign)
    else roundPack (decide (z < 0)) z.natAbs e

/-- Sign bit flipped. -/
def flipSign (a : F32) : F32 := ofSignOrd (!a.sign) a.ord

/-- Instruction `subss` / one lane of `subps`. -/
def sub (a b : F32) : F32 :=
  if a.isNaN then a.quiet
  else if b.isNaN then b.quiet
  else add a b.flipSign

/-- Instruction `divss` / one lane of `divps`. -/
def div (a b : F32) : F32 :=
  if a.isNaN then a.quiet
  else if b.isNaN then b.quiet
  else if a.isInf then (if b.isInf then defaultNaN else inf (Bool.xor a.sign b.sign))
  else if b.isInf then zero (Bool.xor a.sign b.sign)
  else if b.isZero then (if a.isZero then defaultNaN else inf (Bool.xor a.sign b.sign))
  else
    let n := a.mant * 18446744073709551616
    roundPack (Bool.xor a.sign b.sign)
      (2 * (n / b.mant) + (if n % b.mant = 0 then 0 else 1)) (a.expo - b.expo - 65)

/-- Digit-by-digit integer square root: `r` is the root found so far, the
first argument counts the bits still to decide. -/
def isqrtAux (n : Nat) : Nat → Nat → Nat
  | 0, r => r
  | b + 1, r =>
    if (r + 2 ^ b) * (r + 2 ^ b) ≤ n then isqrtAux n b (r + 2 ^ b) else isqrtAux n b r

/-- Floor of the square root. -/
def isqrt (n : Nat) : Nat := isqrtAux n (ilog2 n / 2 + 1) 0

/-- Instruction `sqrtss` / one lane of `sqrtps`. -/
def sqrt (a : F32) : F32 :=
  if a.isNaN then a.quiet
  else if a.isZero then a
  else if a.sign then defaultNaN
  else if a.isInf then a
  else
    let odd : Bool := decide (a.expo % 2 = 1)
    let n := (if odd then 2 * a.mant else a.mant) * 18446744073709551616
    let e : Int := if odd then a.expo - 1 else a.expo
    let r := isqrt n
    roundPack false (2 * r + (if r * r = n then 0 else 1)) (e / 2 - 33)

/-- The ordered-equal comparison of `cmpeqps` (and of C++ `==` on `f32`):
false when either side is a NaN, `+0.0f` and `-0.0f` compare equal. -/
def eq (a b : F32) : Bool :=
  !a.isNaN && !b.isNaN && (decide (a.bits = b.bits) || (a.isZero && b.isZero))

/-- Bitwise exclusive or of the two patterns (one lane of `xorps`). -/
def xor (a b : F32) : F32 := ofBits (a.bits ^^^ b.bits)

end F32

/-! ## `__m128` and the SSE intrinsics used by `vector4.h` -/

/-- A 128-bit register as four packed `f32` lanes; `f0` is bits 0..31. -/
structure M128 where
  f0 : F32
  f1 : F32
  f2 : F32
  f3 : F32
deriving DecidableEq

/-- Apply a lane operation to the four lane pairs. -/
def M128.map2 (f : F32 → F32 → F32) (a b : M128) : M128 :=
  ⟨f a.f0 b.f0, f a.f1 b.f1, f a.f2 b.f2, f a.f3 b.f3⟩

/-- Broadcast one value to the four lanes. -/
def _mm_set1_ps (a : F32) : M128 := ⟨a, a, a, a⟩

/-- Reverse-order set: the first argument goes to lane 0. -/
def _mm_setr_ps (e0 e1 e2 e3 : F32) : M128 := ⟨e0, e1, e2, e3⟩

/-- Four lanes of `+0.0f`. -/
def _mm_setzero_ps : M128 := ⟨F32.zero false, F32.zero false, F32.zero false, F32.zero false⟩

def _mm_add_ps (a b : M128) : M128 := M128.map2 F32.add a b

def _mm_mul_ps (a b : M128) : M128 := M128.map2 F32.mul a b

def _mm_div_ps (a b : M128) : M128 := M128.map2 F32.div a b

def _mm_xor_ps (a b : M128) : M128 := M128.map2 F32.xor a b

def _mm_sqrt_ps (a : M128) : M128 := ⟨a.f0.sqrt, a.f1.sqrt, a.f2.sqrt, a.f3.sqrt⟩

/-- Lane mask of `cmpeqps`: all ones where the lanes compare equal, else zero. -/
def cmpeqLane (a b : F32) : F32 := if F32.eq a b then F32.ofBits 4294967295 else F32.ofBits 0

def _mm_cmpeq_ps (a b : M128) : M128 := M128.map2 cmpeqLane a b

/-- The four sign bits, lane `i` in bit `i`. -/
def _mm_movemask_ps (a : M128) : Nat :=
  (if a.f0.sign then 1 else 0) + (if a.f1.sign then 2 else 0)
    + (if a.f2.sign then 4 else 0) + (if a.f3.sign then 8 else 0)

/-- Lane 0. -/
def _mm_cvtss_f32 (a : M128) : F32 := a.f0

/-- The `dpps` instruction: bits 4..7 of `imm8` choose the lane products that
enter the sum, bits 0..3 the lanes that receive it; the sum is formed as
`(p0 + p1) + (p2 + p3)`. -/
def _mm_dp_ps (a b : M128) (imm8 : Nat) : M128 :=
  let p0 := if imm8.testBit 4 then F32.mul a.f0 b.f0 else F32.zero false
  let p1 := if imm8.testBit 5 then F32.mul a.f1 b.f1 else F32.zero false
  let p2 := if imm8.testBit 6 then F32.mul a.f2 b.f2 else F32.zero false
  let p3 := if imm8.testBit 7 then F32.mul a.f3 b.f3 else F32.zero false
  let sum := F32.add (F32.add p0 p1) (F32.add p2 p3)
  ⟨if imm8.testBit 0 then sum else F32.zero false,
   if imm8.testBit 1 then sum else F32.zero false,
   if imm8.testBit 2 then sum else F32.zero false,
   if imm8.testBit 3 then sum else F32.zero false⟩

/-! ## Constants of headers that are not part of the sources -/

namespace SSE

/-- Modelled from the spec: `SSE::DP_MASK_V4` of `sse_masks.h`, the `dpps`
mask of "a four-lane dot product (all four lanes, including `w`)": every
product enters the sum and the sum is written to every lane. -/
def DP_MASK_V4 : Nat := 255

/-- Modelled from the spec: `SSE::SIGN_MASK_V4` of `sse_masks.h`, the mask
that "flips the sign bit of all four lanes": bit 31 set in each lane. -/
def SIGN_MASK_V4 : M128 := _mm_set1_ps (F32.ofBits 2147483648)

end SSE

/-- Modelled from the spec: `Min` of `common.h`, the "integer-min" that
`operator[]` applies to its index and `3`. -/
def Min (a b : Int) : Int := if a < b then a else b

/-- The literal `0.0f`. -/
def f32_0 : F32 := F32.ofBits 0

/-- The literal `1.0f`. -/
def f32_1 : F32 := F32.ofBits 1065353216

/-! ## `union Vector4` -/

/-- The union's 16 bytes, held as the `_sse` member; the other members are
views of the same lanes. -/
structure Vector4 where
  _sse : M128
deriving DecidableEq

/-- What a returned `Vector4&` designates. -/
inductive Ref where
  | this
  | rhs
deriving DecidableEq

/-- Effect of a member function that returns `Vector4&`: the receiver after
the call and the object the returned reference designates. -/
structure Mutation where
  self : Vector4
  ret : Ref
deriving DecidableEq

/-- Effect of a member function returning a value: the receiver after the
call and the value returned. -/
structure Call (α : Type) where
  self : Vector4
  ret : α

namespace Vector4

/-! `struct { f32 x, y, z, w; }` -/

def x (v : Vector4) : F32 := v._sse.f0
def y (v : Vector4) : F32 := v._sse.f1
def z (v : Vector4) : F32 := v._sse.f2
def w (v : Vector4) : F32 := v._sse.f3

/-! `struct { f32 r, b, g, a; }` -/

def r (v : Vector4) : F32 := v._sse.f0
def b (v : Vector4) : F32 := v._sse.f1
def g (v : Vector4) : F32 := v._sse.f2
def a (v : Vector4) : F32 := v._sse.f3

/-! `struct { f32 s, t, u, v; }` -/

def s (v : Vector4) : F32 := v._sse.f0
def t (v : Vector4) : F32 := v._sse.f1
def u (v : Vector4) : F32 := v._sse.f2
def v (v : Vector4) : F32 := v._sse.f3

/-- Element `k` of `f32 data[4]`; there is no element outside `0..3`. -/
def data (v : Vector4) (k : Int) : Option F32 :=
  if k = 0 then some v._sse.f0
  else if k = 1 then some v._sse.f1
  else if k = 2 then some v._sse.f2
  else if k = 3 then some v._sse.f3
  else none

/-- A store to element `k` of `f32 data[4]`. -/
def dataStore (v : Vector4) (k : Int) (val : F32) : Option Vector4 :=
  if k = 0 then some ⟨⟨val, v._sse.f1, v._sse.f2, v._sse.f3⟩⟩
  else if k = 1 then some ⟨⟨v._sse.f0, val, v._sse.f2, v._sse.f3⟩⟩
  else if k = 2 then some ⟨⟨v._sse.f0, v._sse.f1, val, v._sse.f3⟩⟩
  else if k = 3 then some ⟨⟨v._sse.f0, v._sse.f1, v._sse.f2, val⟩⟩
  else none

/-- Constructor `Vector4(f32 val = 0.0f)` with the argument given. -/
def ofVal (val : F32) : Vector4 := ⟨_mm_set1_ps val⟩

/-- Constructor `Vector4()`, the argument defaulted to `0.0f`. -/
def default : Vector4 := ofVal f32_0

/-- Constructor `Vector4(f32 x, f32 y, f32 z, f32 w)`. -/
def ofXYZW (x y z w : F32) : Vector4 := ⟨_mm_setr_ps x y z w⟩

/-- Constructor `Vector4(__m128 sse)`. -/
def ofSSE (sse : M128) : Vector4 := ⟨sse⟩

def Length (self : Vector4) : F32 :=
  _mm_cvtss_f32 (_mm_sqrt_ps (_mm_dp_ps self._sse self._sse SSE.DP_MASK_V4))

def SqrLength (self : Vector4) : F32 :=
  _mm_cvtss_f32 (_mm_dp_ps self._sse self._sse SSE.DP_MASK_V4)

/-- Member `Unit() const`: the receiver is not assigned. -/
def UnitCall (self : Vector4) : Call Vector4 :=
  if _mm_movemask_ps (_mm_cmpeq_ps self._sse _mm_setzero_ps) ≠ 15 then
    ⟨self, ofSSE (_mm_div_ps self._sse (_mm_sqrt_ps (_mm_dp_ps self._sse self._sse 255)))⟩
  else ⟨self, self⟩

/-- The value `Unit()` returns. -/
def Unit (self : Vector4) : Vector4 := (UnitCall self).ret

/-- Member `Normalize()`: assigns `_sse` when the guard passes, returns `*this`. -/
def Normalize (self : Vector4) : Mutation :=
  if _mm_movemask_ps (_mm_cmpeq_ps self._sse _mm_setzero_ps) ≠ 15 then
    ⟨⟨_mm_div_ps self._sse (_mm_sqrt_ps (_mm_dp_ps self._sse self._sse 255))⟩, Ref.this⟩
  else ⟨self, Ref.this⟩

/-- Member `operator==`. -/
def op_eq (self rhs : Vector4) : Bool :=
  decide (_mm_movemask_ps (_mm_cmpeq_ps self._sse rhs._sse) = 15)

/-- Member `operator!=`. -/
def op_ne (self rhs : Vector4) : Bool :=
  decide (_mm_movemask_ps (_mm_cmpeq_ps self._sse rhs._sse) ≠ 15)

/-- Unary `operator-`. -/
def op_neg (self : Vector4) : Vector4 := ofSSE (_mm_xor_ps self._sse SSE.SIGN_MASK_V4)

/-- Member `operator+(const Vector4&)`. -/
def op_add (self rhs : Vector4) : Vector4 := ofSSE (_mm_add_ps self._sse rhs._sse)

/-- Member `operator*(const Vector4&)`.  The compiler's header defines
`_mm_mul_ps` as the commutative `*` on vectors, so which operand the multiply
instruction takes first is the compiler's choice, here `swapped`; the choice
shows only in a lane where both operands are NaNs, in the payload that is
forwarded. -/
def op_mul (self rhs : Vector4) (swapped : Bool) : Vector4 :=
  ofSSE (if swapped then _mm_mul_ps rhs._sse self._sse else _mm_mul_ps self._sse rhs._sse)

/-- Member `operator*(f32)`. -/
def op_mul_scalar (self : Vector4) (scalar : F32) : Vector4 :=
  ofSSE (_mm_mul_ps self._sse (_mm_set1_ps scalar))

/-- Member `operator/(f32)`. -/
def op_div_scalar (self : Vector4) (scalar : F32) : Vector4 :=
  ofSSE (_mm_div_ps self._sse (_mm_set1_ps scalar))

/-- Member `operator __m128()`, both overloads. -/
def toM128 (self : Vector4) : M128 := self._sse

/-- The subscript both overloads of `operator[]` apply to `data`. -/
def subscript (index : Int) : Int := Min index 3

/-- Member `operator[](int) const`: the element read through the returned reference. -/
def op_index (self : Vector4) (index : Int) : Option F32 := self.data (Min index 3)

/-- Member `operator[](int)`: a store through the returned reference. -/
def op_index_store (self : Vector4) (index : Int) (val : F32) : Option Vector4 :=
  self.dataStore (Min index 3) val

end Vector4

def Dot (lhs rhs : Vector4) : F32 :=
  _mm_cvtss_f32 (_mm_dp_ps lhs._sse rhs._sse SSE.DP_MASK_V4)

def Lerp (a b : Vector4) (t : F32) : Vector4 :=
  Vector4.ofSSE (_mm_add_ps
    (_mm_mul_ps a._sse (_mm_set1_ps (F32.sub f32_1 t)))
    (_mm_mul_ps b._sse (_mm_set1_ps t)))

/-! ## The specification's wording, for comparison with the code -/

namespace Spec

/-- From the words "Divides every lane by the 4-lane norm": each lane of `v` divided by the
square root of the sum of the squares of the four lanes. -/
def unitScaled (v : Vector4) : Vector4 :=
  let n := F32.sqrt (F32.add (F32.add (F32.mul v.x v.x) (F32.mul v.y v.y))
    (F32.add (F32.mul v.z v.z) (F32.mul v.w v.w)))
  Vector4.ofXYZW (F32.div v.x n) (F32.div v.y n) (F32.div v.z n) (F32.div v.w n)

/-- Every lane is a finite number. -/
def allFinite (v : Vector4) : Bool :=
  v.x.isFinite && v.y.isFinite && v.z.isFinite && v.w.isFinite

/-- No lane is a NaN. -/
def noNaN (v : Vector4) : Bool :=
  !v.x.isNaN && !v.y.isNaN && !v.z.isNaN && !v.w.isNaN

/-- Every lane is `+0.0f` or `-0.0f`. -/
def allZero (v : Vector4) : Bool :=
  v.x.isZero && v.y.isZero && v.z.isZero && v.w.isZero

/-- The C++ test `e == a` on an element read through `operator[]`; there is
nothing to compare when the subscript is outside the array. -/
def readEquals (e : Option F32) (a : F32) : Bool :=
  match e with
  | some x => F32.eq x a
  | none => false

end Spec

/-! ## Sample vectors -/

/-- Sample `Vector4(1.0f, 2.0f, 3.0f, 4.0f)`. -/
def v1234 : Vector4 :=
  Vector4.ofXYZW f32_1 (F32.ofBits 1073741824) (F32.ofBits 1077936128) (F32.ofBits 1082130432)

/-- Sample `Vector4(-0.0f, 0.0f, 0.0f, 0.0f)`. -/
def vNegZero : Vector4 := Vector4.ofXYZW (F32.ofBits 2147483648) f32_0 f32_0 f32_0

/-- Sample `Vector4(NAN)`: a quiet NaN in every lane. -/
def vNaN : Vector4 := Vector4.ofVal (F32.ofBits 2143289344)

/-- Sample `Vector4(INFINITY)`. -/
def vInf : Vector4 := Vector4.ofVal (F32.ofBits 2139095040)

/-- Sample `Vector4(0x1p100f, 0.0f, 0.0f, 0.0f)`: a lane whose square overflows. -/
def vBig : Vector4 := Vector4.ofXYZW (F32.ofBits 1904214016) f32_0 f32_0 f32_0

/-- Sample `Vector4(0x1p-100f, 0.0f, 0.0f, 0.0f)`: a lane whose square underflows. -/
def vTiny : Vector4 := Vector4.ofXYZW (F32.ofBits 226492416) f32_0 f32_0 f32_0

/-- Sample `Vector4(INFINITY, -INFINITY, 0.0f, 0.0f)`. -/
def vInfPair : Vector4 :=
  Vector4.ofXYZW (F32.ofBits 2139095040) (F32.ofBits 4286578688) f32_0 f32_0

/-! ## Calls on objects in memory -/

/-- Magnitude of a finite `f32`. -/
def F32.absRat (a : F32) : ℚ := (a.mant : ℚ) * (2 : ℚ) ^ a.expo

/-- Value of a finite `f32`. -/
def F32.toRat (a : F32) : ℚ := if a.sign then -a.absRat else a.absRat

/-- The test "`x` is 1.0 within `eps`": `x` is finite and differs from 1 by
at most `eps`. -/
def Spec.withinOne (x : F32) (eps : ℚ) : Bool :=
  x.isFinite && decide (|x.toRat - 1| ≤ eps)

/-- Vectors whose squared lanes neither overflow nor vanish: every lane is
finite with magnitude at most `2^62`, and some lane has magnitude at least
`2^-62`. -/
def Spec.moderate (v : Vector4) : Bool :=
  Spec.allFinite v &&
  decide (v.x.absRat ≤ 4611686018427387904) && decide (v.y.absRat ≤ 4611686018427387904) &&
  decide (v.z.absRat ≤ 4611686018427387904) && decide (v.w.absRat ≤ 4611686018427387904) &&
  (decide (1 / 4611686018427387904 ≤ v.x.absRat) ||
    decide (1 / 4611686018427387904 ≤ v.y.absRat) ||
    decide (1 / 4611686018427387904 ≤ v.z.absRat) ||
    decide (1 / 4611686018427387904 ≤ v.w.absRat))

/-! ## Lane facts -/

theorem F32.ext_bits {a b : F32} (h : a.bits = b.bits) : a = b := by
  cases a; cases b; simp_all

theorem F32.sign_allOnes : (F32.ofBits 4294967295).sign = true := by decide

theorem F32.sign_allZeros : (F32.ofBits 0).sign = false := by decide

theorem cmpeqLane_sign (a b : F32) : (cmpeqLane a b).sign = F32.eq a b := by
  unfold cmpeqLane
  cases h : F32.eq a b
  · simpa using F32.sign_allZeros
  · simpa using F32.sign_allOnes

/-- The mask of `_mm_movemask_ps` is `0xF` exactly when the four sign bits are set. -/
theorem movemask_eq_15 (m : M128) :
    _mm_movemask_ps m = 15 ↔
      (m.f0.sign = true ∧ m.f1.sign = true ∧ m.f2.sign = true ∧ m.f3.sign = true) := by
  unfold _mm_movemask_ps
  cases m.f0.sign <;> cases m.f1.sign <;> cases m.f2.sign <;> cases m.f3.sign <;> simp

/-- The result of `operator==` lane by lane. -/
theorem Vector4.op_eq_iff (v w : Vector4) :
    v.op_eq w = true ↔
      (F32.eq v.x w.x = true ∧ F32.eq v.y w.y = true ∧
        F32.eq v.z w.z = true ∧ F32.eq v.w w.w = true) := by
  unfold Vector4.op_eq
  rw [decide_eq_true_iff, movemask_eq_15]
  simp only [_mm_cmpeq_ps, M128.map2, cmpeqLane_sign, Vector4.x, Vector4.y, Vector4.z, Vector4.w]

/-! ## Claims -/

/-- C2: for every vector and every index `i ≥ 3`, `operator[]` applies the
same subscript as for index 3, so the const overload reads lane `w` and a
store through the mutable overload writes lane `w`. -/
theorem C2_index_at_least_three (v : Vector4) (i : Int) (h : 3 ≤ i) :
    Vector4.subscript i = Vector4.subscript 3 ∧
    v.op_index i = v.op_index 3 ∧
    v.op_index i = some v.w ∧
    ∀ val : F32,
      v.op_index_store i val = v.op_index_store 3 val ∧
      v.op_index_store i val = some ⟨⟨v.x, v.y, v.z, val⟩⟩ := by
  have hm : Min i 3 = 3 := by unfold Min; split <;> omega
  have h3 : Min 3 3 = 3 := by decide
  simp [Vector4.subscript, Vector4.op_index, Vector4.op_index_store, hm, h3,
    Vector4.data, Vector4.dataStore, Vector4.x, Vector4.y, Vector4.z, Vector4.w]

theorem C2_index_at_least_three_witness :
    (3 : Int) ≤ 5 ∧ v1234.op_index 5 = v1234.op_index 3 ∧ v1234.op_index 5 = some v1234.w :=
  ⟨by decide, (C2_index_at_least_three v1234 5 (by decide)).2.1,
    (C2_index_at_least_three v1234 5 (by decide)).2.2.1⟩

theorem F32.eq_self (a : F32) : F32.eq a a = !a.isNaN := by
  unfold F32.eq
  cases a.isNaN <;> simp

theorem F32.isNaN_of_isFinite {a : F32} (h : a.isFinite = true) : a.isNaN = false := by
  unfold F32.isFinite at h
  unfold F32.isNaN
  simp only [decide_eq_true_eq] at h
  simp only [decide_eq_false_iff_not]
  omega

theorem F32.isInf_of_isFinite {a : F32} (h : a.isFinite = true) : a.isInf = false := by
  unfold F32.isFinite at h
  unfold F32.isInf
  simp only [decide_eq_true_eq] at h
  simp only [decide_eq_false_iff_not]
  omega

theorem F32.eq_self_of_isFinite {a : F32} (h : a.isFinite = true) : F32.eq a a = true := by
  rw [F32.eq_self, F32.isNaN_of_isFinite h]; rfl

/-- C3: for finite `a, b, c, d`, the vector `Vector4(a, b, c, d)` read through
`operator[]` at 0, 1, 2, 3 gives exactly `a, b, c, d` (and the C++ test `==`
on them succeeds), and its first lane read as `.x`, `.r` or `.s` is `a`. -/
theorem C3_constructor_lanes (a b c d : F32)
    (ha : a.isFinite = true) (hb : b.isFinite = true)
    (hc : c.isFinite = true) (hd : d.isFinite = true) :
    (Vector4.ofXYZW a b c d).op_index 0 = some a ∧
    (Vector4.ofXYZW a b c d).op_index 1 = some b ∧
    (Vector4.ofXYZW a b c d).op_index 2 = some c ∧
    (Vector4.ofXYZW a b c d).op_index 3 = some d ∧
    Spec.readEquals ((Vector4.ofXYZW a b c d).op_index 0) a = true ∧
    Spec.readEquals ((Vector4.ofXYZW a b c d).op_index 1) b = true ∧
    Spec.readEquals ((Vector4.ofXYZW a b c d).op_index 2) c = true ∧
    Spec.readEquals ((Vector4.ofXYZW a b c d).op_index 3) d = true ∧
    (Vector4.ofXYZW a b c d).x = a ∧ (Vector4.ofXYZW a b c d).r = a ∧
    (Vector4.ofXYZW a b c d).s = a ∧
    F32.eq (Vector4.ofXYZW a b c d).x a = true ∧ F32.eq (Vector4.ofXYZW a b c d).r a = true ∧
    F32.eq (Vector4.ofXYZW a b c d).s a = true := by
  have h0 : Min 0 3 = 0 := by decide
  have h1 : Min 1 3 = 1 := by decide
  have h2 : Min 2 3 = 2 := by decide
  have h3 : Min 3 3 = 3 := by decide
  simp [Vector4.op_index, Vector4.data, Vector4.ofXYZW, _mm_setr_ps, h0, h1, h2, h3,
    Spec.readEquals, Vector4.x, Vector4.r, Vector4.s, F32.eq_self_of_isFinite, ha, hb, hc, hd]

theorem C3_constructor_lanes_witness :
    v1234.op_index 0 = some f32_1 ∧ v1234.op_index 3 = some (F32.ofBits 1082130432) ∧
    v1234.r = f32_1 ∧ v1234.s = f32_1 :=
  ⟨(C3_constructor_lanes f32_1 (F32.ofBits 1073741824) (F32.ofBits 1077936128)
      (F32.ofBits 1082130432) (by decide) (by decide) (by decide) (by decide)).1,
   (C3_constructor_lanes f32_1 (F32.ofBits 1073741824) (F32.ofBits 1077936128)
      (F32.ofBits 1082130432) (by decide) (by decide) (by decide) (by decide)).2.2.2.1,
   (C3_constructor_lanes f32_1 (F32.ofBits 1073741824) (F32.ofBits 1077936128)
      (F32.ofBits 1082130432) (by decide) (by decide) (by decide) (by decide)).2.2.2.2.2.2.2.2.2.1,
   (C3_constructor_lanes f32_1 (F32.ofBits 1073741824) (F32.ofBits 1077936128)
      (F32.ofBits 1082130432) (by decide) (by decide) (by decide) (by decide)).2.2.2.2.2.2.2.2.2.2.1⟩

/-- C4: the union declares the colour members in the order `r, b, g, a`, so on
`Vector4(1, 2, 3, 4)` the member `.g` reads `3.0f` (the lane of `.z` and `.u`)
and `.b` reads `2.0f` (the lane of `.y` and `.t`), while `.r` and `.a` read
the first and the last lane. -/
theorem C4_colour_members_on_1234 :
    v1234.r = f32_1 ∧ v1234.a = F32.ofBits 1082130432 ∧
    v1234.g = F32.ofBits 1077936128 ∧ v1234.b = F32.ofBits 1073741824 ∧
    v1234.y = F32.ofBits 1073741824 ∧ v1234.z = F32.ofBits 1077936128 ∧
    v1234.g ≠ v1234.y ∧ v1234.g ≠ v1234.t ∧ v1234.b ≠ v1234.z ∧ v1234.b ≠ v1234.u ∧
    (∀ v : Vector4, v.g = v.z ∧ v.g = v.u ∧ v.b = v.y ∧ v.b = v.t ∧ v.r = v.x ∧ v.a = v.w) := by
  refine ⟨rfl, rfl, rfl, rfl, rfl, rfl, by decide, by decide, by decide, by decide, ?_⟩
  intro v
  exact ⟨rfl, rfl, rfl, rfl, rfl, rfl⟩

/-- C6: after `v.Normalize()` the receiver holds exactly what `Unit()` returns
on the original `v`, `Normalize` returns a reference to the receiver, and
`Unit()` leaves its receiver as it was. -/
theorem C6_normalize_matches_unit (v : Vector4) :
    (v.Normalize).self = v.Unit ∧
    (v.Normalize).self.x = v.Unit.x ∧ (v.Normalize).self.y = v.Unit.y ∧
    (v.Normalize).self.z = v.Unit.z ∧ (v.Normalize).self.w = v.Unit.w ∧
    (v.Normalize).ret = Ref.this ∧
    (v.UnitCall).self = v := by
  have h : (v.Normalize).self = v.Unit := by
    unfold Vector4.Normalize Vector4.Unit Vector4.UnitCall
    split <;> rfl
  refine ⟨h, by rw [h], by rw [h], by rw [h], by rw [h], ?_, ?_⟩
  · unfold Vector4.Normalize
    split <;> rfl
  · unfold Vector4.UnitCall
    split <;> rfl

/-- C7: `v == w` is true exactly when each of the four lane pairs compares
equal under the exact `f32` comparison; vectors one unit in the last place
apart already compare unequal. -/
theorem C7_equality_is_lanewise :
    (∀ v w : Vector4,
      v.op_eq w = true ↔
        (F32.eq v.x w.x = true ∧ F32.eq v.y w.y = true ∧
          F32.eq v.z w.z = true ∧ F32.eq v.w w.w = true)) ∧
    (Vector4.ofVal f32_1).op_eq (Vector4.ofVal (F32.ofBits 1065353217)) = false :=
  ⟨Vector4.op_eq_iff, by decide⟩

/-- C8: for every vector, `Dot(v, v)` and `v.SqrLength()` are the same `f32`. -/
theorem C8_dot_self_is_sqrLength (v : Vector4) : Dot v v = v.SqrLength := rfl


namespace F32

theorem ilog2Aux_spec : ∀ (f n : Nat), n ≤ f → n ≠ 0 →
    2 ^ ilog2Aux f n ≤ n ∧ n < 2 ^ (ilog2Aux f n + 1) := by
  intro f
  induction f with
  | zero => intro n h h0; omega
  | succ f ih =>
    intro n h h0
    unfold ilog2Aux
    by_cases h2 : n < 2
    · rw [if_pos h2]
      have : n = 1 := by omega
      subst this
      decide
    · rw [if_neg h2]
      have := ih (n / 2) (by omega) (by omega)
      rw [pow_succ] at this
      rw [pow_succ, pow_succ, pow_succ]
      omega

theorem ilog2_spec (n : Nat) (h0 : n ≠ 0) : 2 ^ ilog2 n ≤ n ∧ n < 2 ^ (ilog2 n + 1) :=
  ilog2Aux_spec n n (Nat.le_refl n) h0

theorem ilog2_unique (n a : Nat) (h1 : 2 ^ a ≤ n) (h2 : n < 2 ^ (a + 1)) : ilog2 n = a := by
  have h0 : n ≠ 0 := by
    have := Nat.two_pow_pos a
    omega
  obtain ⟨h3, h4⟩ := ilog2_spec n h0
  by_contra hne
  rcases Nat.lt_or_gt_of_ne hne with hlt | hgt
  · have := Nat.pow_le_pow_right (show 0 < 2 by decide) (show ilog2 n + 1 ≤ a by omega)
    omega
  · have := Nat.pow_le_pow_right (show 0 < 2 by decide) (show a + 1 ≤ ilog2 n by omega)
    omega

/-- Rounding a value that is already a binary32 significand times a power of
two returns that significand and exponent. -/
theorem roundPack_of_exact (s : Bool) (M k L : Nat) (e0 : Int)
    (hL1 : 2 ^ L ≤ M) (hL2 : M < 2 ^ (L + 1))
    (hq : max (e0 + (L : Int) - 23) (-149) = e0) :
    roundPack s (M * 2 ^ k) (e0 - k) =
      ofSignOrd s (min ((e0 + 149).toNat * 8388608 + M) 2139095040) := by
  have hpk : 0 < 2 ^ k := Nat.two_pow_pos k
  have hM : 0 < M := by
    have := Nat.two_pow_pos L
    omega
  have hm : M * 2 ^ k ≠ 0 := Nat.ne_of_gt (Nat.mul_pos hM hpk)
  have hlog : ilog2 (M * 2 ^ k) = L + k := by
    apply ilog2_unique
    · rw [pow_add]; exact Nat.mul_le_mul_right _ hL1
    · rw [show L + k + 1 = (L + 1) + k by omega, pow_add]
      exact Nat.mul_lt_mul_of_pos_right hL2 hpk
  have hq2 : max (e0 - (k : Int) + ((L + k : Nat) : Int) - 23) (-149) = e0 := by
    have h : e0 - (k : Int) + ((L + k : Nat) : Int) - 23 = e0 + (L : Int) - 23 := by
      push_cast
      ring
    rw [h, hq]
  unfold roundPack
  rw [if_neg hm, hlog]
  simp only [hq2]
  by_cases hk : k = 0
  · subst hk
    simp
  · have hle : ¬ (e0 ≤ e0 - (k : Int)) := by omega
    have hk2 : (e0 - (e0 - (k : Int))).toNat = k := by omega
    have hh : 0 < 2 ^ (k - 1) := Nat.two_pow_pos (k - 1)
    rw [if_neg hle]
    simp only [hk2, Nat.mul_mod_left, Nat.mul_div_cancel _ hpk]
    rw [if_neg (by omega)]

theorem ofSignOrd_sign_ord (x : F32) : ofSignOrd x.sign x.ord = x := by
  apply F32.ext_bits
  have := x.lt
  unfold ofSignOrd ofBits sign ord
  by_cases h : 2147483648 ≤ x.bits
  · simp only [h, decide_True, if_true]; omega
  · simp only [h, decide_False]; simp only [Bool.false_eq_true, if_false]; omega

/-- A finite value with a nonzero significand is recovered by rounding its
significand scaled by any power of two. -/
theorem roundPack_mant (x : F32) (hx : x.isFinite = true) (hm : x.mant ≠ 0) (s : Bool)
    (k : Nat) : roundPack s (x.mant * 2 ^ k) (x.expo - k) = ofSignOrd s x.ord := by
  have ho : x.ord < 2139095040 := by simpa [isFinite] using hx
  obtain ⟨h1, h2⟩ := ilog2_spec x.mant hm
  have hlt : x.mant < 2 ^ 24 := by
    unfold mant expField manField
    split <;> omega
  have hL : ilog2 x.mant ≤ 23 := by
    by_contra hc
    have := Nat.pow_le_pow_right (show 0 < 2 by decide) (show 24 ≤ ilog2 x.mant by omega)
    omega
  have key := roundPack_of_exact s x.mant k (ilog2 x.mant) x.expo h1 h2 (by
    by_cases he : x.expField = 0
    · have : x.expo = -149 := by unfold expo; rw [he]; rfl
      rw [this]; omega
    · have hge : 2 ^ 23 ≤ x.mant := by
        unfold mant; rw [if_neg he]; omega
      have hL2 : 23 ≤ ilog2 x.mant := by
        by_contra hc
        have := Nat.pow_le_pow_right (show 0 < 2 by decide) (show ilog2 x.mant + 1 ≤ 23 by omega)
        omega
      have : (1 : Int) ≤ x.expField := by omega
      unfold expo
      omega)
  rw [key]
  congr 1
  unfold expo mant expField manField
  by_cases he : x.ord / 8388608 = 0
  · rw [he]; simp only [if_true]; omega
  · rw [if_neg he]; omega

theorem isNaN_f32_1 : f32_1.isNaN = false := by decide
theorem isInf_f32_1 : f32_1.isInf = false := by decide
theorem sign_f32_1 : f32_1.sign = false := by decide
theorem mant_f32_1 : f32_1.mant = 2 ^ 23 := by decide
theorem expo_f32_1 : f32_1.expo = -23 := by decide
theorem isNaN_f32_0 : f32_0.isNaN = false := by decide
theorem isInf_f32_0 : f32_0.isInf = false := by decide
theorem sign_f32_0 : f32_0.sign = false := by decide
theorem mant_f32_0 : f32_0.mant = 0 := by decide

theorem ord_eq_zero_of_mant {x : F32} (hm : x.mant = 0) : x.ord = 0 := by
  unfold mant expField manField at hm
  split at hm <;> omega

/-- Multiplying a finite value by `1.0f` returns it bit for bit. -/
theorem mul_one_of_isFinite (x : F32) (hx : x.isFinite = true) : mul x f32_1 = x := by
  unfold mul
  rw [isNaN_of_isFinite hx, isNaN_f32_1, isInf_of_isFinite hx, isInf_f32_1, sign_f32_1,
    mant_f32_1, expo_f32_1]
  simp only [Bool.false_eq_true, if_false, Bool.xor_false]
  by_cases hm : x.mant = 0
  · rw [hm]
    simp only [Nat.zero_mul, roundPack, if_true, zero]
    rw [← ord_eq_zero_of_mant hm]
    exact ofSignOrd_sign_ord x
  · have := roundPack_mant x hx hm x.sign 23
    rw [show x.expo + -23 = x.expo - ((23 : Nat) : Int) by rfl, this]
    exact ofSignOrd_sign_ord x

/-- Multiplying a finite value by `0.0f` gives a zero with the value's sign. -/
theorem mul_zero_of_isFinite (x : F32) (hx : x.isFinite = true) : mul x f32_0 = zero x.sign := by
  unfold mul
  rw [isNaN_of_isFinite hx, isNaN_f32_0, isInf_of_isFinite hx, isInf_f32_0, sign_f32_0,
    mant_f32_0]
  simp [roundPack]

theorem isNaN_zero (s : Bool) : (zero s).isNaN = false := by cases s <;> decide
theorem isInf_zero (s : Bool) : (zero s).isInf = false := by cases s <;> decide
theorem isZero_zero (s : Bool) : (zero s).isZero = true := by cases s <;> decide
theorem sign_zero (s : Bool) : (zero s).sign = s := by cases s <;> decide
theorem expo_zero (s : Bool) : (zero s).expo = -149 := by cases s <;> decide
theorem signedMant_zero (s : Bool) : (zero s).signedMant = 0 := by cases s <;> decide
theorem zero_false_eq : zero false = f32_0 := by decide

theorem expo_ge (x : F32) : -149 ≤ x.expo := by
  unfold expo
  omega

theorem isInf_of_not (x : F32) (hn : x.isNaN = false) (hf : x.isFinite = false) :
    x.isInf = true := by
  unfold isNaN at hn
  unfold isFinite at hf
  unfold isInf
  simp only [decide_eq_false_iff_not] at hn hf
  simp only [decide_eq_true_eq]
  omega

theorem inf_sign_of_isInf (x : F32) (hi : x.isInf = true) : inf x.sign = x := by
  have h : x.ord = 2139095040 := by simpa [isInf] using hi
  unfold inf
  rw [← h]
  exact ofSignOrd_sign_ord x

theorem isNaN_of_isInf {x : F32} (hi : x.isInf = true) : x.isNaN = false := by
  have h : x.ord = 2139095040 := by simpa [isInf] using hi
  unfold isNaN
  simp only [decide_eq_false_iff_not]
  omega

theorem isNaN_defaultNaN : defaultNaN.isNaN = true := by decide

/-- Making a NaN quiet leaves it a NaN. -/
theorem isNaN_quiet (x : F32) (hx : x.isNaN = true) : x.quiet.isNaN = true := by
  have hlt := x.lt
  have ho : 2139095040 < x.bits % 2147483648 := by simpa [isNaN, ord] using hx
  have hb : x.bits ||| 4194304 < 4294967296 :=
    Nat.or_lt_two_pow (n := 32) (by simpa using hlt) (by decide)
  have ht : ∀ i, (x.bits ||| 4194304) / 2 ^ i % 2 = 1 ↔
      (x.bits / 2 ^ i % 2 = 1 ∨ 4194304 / 2 ^ i % 2 = 1) := by
    intro i
    have := Nat.testBit_or x.bits 4194304 i
    simp only [Nat.testBit_to_div_mod] at this
    rw [Bool.eq_iff_iff] at this
    simpa using this
  have h22 := ht 22
  have h23 := ht 23
  have h24 := ht 24
  have h25 := ht 25
  have h26 := ht 26
  have h27 := ht 27
  have h28 := ht 28
  have h29 := ht 29
  have h30 := ht 30
  norm_num at h22 h23 h24 h25 h26 h27 h28 h29 h30
  unfold quiet isNaN ord ofBits
  simp only [decide_eq_true_eq]
  omega

/-- Multiplying by `1.0f` returns every operand that is not a NaN, bit for bit. -/
theorem mul_one_of_not_isNaN (x : F32) (hx : x.isNaN = false) : mul x f32_1 = x := by
  cases hf : x.isFinite
  · have hi := isInf_of_not x hx hf
    unfold mul
    rw [hx, isNaN_f32_1, hi, sign_f32_1]
    have : f32_1.isZero = false := by decide
    simp only [this, Bool.false_eq_true, if_false, if_true, Bool.xor_false]
    exact inf_sign_of_isInf x hi
  · exact mul_one_of_isFinite x hf

/-- Multiplying an infinity or a NaN by `0.0f` gives a NaN. -/
theorem isNaN_mul_zero_of_not_isFinite (x : F32) (hf : x.isFinite = false) :
    (mul x f32_0).isNaN = true := by
  unfold mul
  cases hn : x.isNaN
  · have hi := isInf_of_not x hn hf
    have : f32_0.isZero = true := by decide
    simp only [isNaN_f32_0, hi, this, Bool.false_eq_true, if_false, if_true]
    exact isNaN_defaultNaN
  · simp only [if_true]
    exact isNaN_quiet x hn

theorem isNaN_add_left (a b : F32) (ha : a.isNaN = true) : (add a b).isNaN = true := by
  unfold add
  rw [ha]
  simp only [if_true]
  exact isNaN_quiet a ha

theorem isNaN_add_right (a b : F32) (hb : b.isNaN = true) : (add a b).isNaN = true := by
  cases ha : a.isNaN
  · unfold add
    rw [ha, hb]
    simp only [Bool.false_eq_true, if_false, if_true]
    exact isNaN_quiet b hb
  · exact isNaN_add_left a b ha

theorem eq_false_of_isNaN_left (a b : F32) (ha : a.isNaN = true) : F32.eq a b = false := by
  unfold F32.eq
  rw [ha]
  rfl

theorem not_isNaN_of_eq {a b : F32} (h : F32.eq a b = true) :
    a.isNaN = false ∧ b.isNaN = false := by
  unfold F32.eq at h
  cases ha : a.isNaN <;> cases hb : b.isNaN <;> simp_all

/-- Addition does not depend on the order of operands that are not NaNs. -/
theorem add_comm_of_not_isNaN (a b : F32) (ha : a.isNaN = false) (hb : b.isNaN = false) :
    add a b = add b a := by
  unfold add
  rw [ha, hb]
  simp only [Bool.false_eq_true, if_false]
  cases hai : a.isInf <;> cases hbi : b.isInf
  · simp only [Bool.false_eq_true, if_false]
    rw [min_comm, Int.add_comm, Bool.and_comm]
  · simp
  · simp
  · by_cases hs : a.sign = b.sign
    · have : a = b := by
        rw [← inf_sign_of_isInf a hai, ← inf_sign_of_isInf b hbi, hs]
      simp [this]
    · have hs2 : ¬ b.sign = a.sign := fun h => hs h.symm
      simp [hs, hs2]

/-- Adding a zero to an operand that is not a NaN gives a value that compares
equal to the operand. -/
theorem eq_add_zero_right (x : F32) (hx : x.isNaN = false) (s : Bool) :
    F32.eq (add x (zero s)) x = true := by
  cases hf : x.isFinite
  · have hi := isInf_of_not x hx hf
    unfold add
    rw [hx, isNaN_zero, hi, isInf_zero]
    simp only [Bool.false_eq_true, if_false, if_true, false_and]
    rw [F32.eq_self, hx]
    rfl
  · unfold add
    rw [hx, isNaN_zero, isInf_of_isFinite hf, isInf_zero, expo_zero, signedMant_zero, sign_zero]
    simp only [Bool.false_eq_true, if_false]
    have he : min x.expo (-149) = -149 := by have := expo_ge x; omega
    rw [he]
    simp only [zero_mul, add_zero]
    by_cases hm : x.mant = 0
    · have h0 : x.signedMant = 0 := by unfold signedMant; rw [hm]; simp
      rw [h0]
      simp only [zero_mul, if_true]
      unfold F32.eq
      have hz : x.isZero = true := by
        unfold isZero; rw [ord_eq_zero_of_mant hm]; rfl
      rw [isNaN_zero, hx, isZero_zero, hz]
      simp
    · have hN : 0 < x.mant * 2 ^ (x.expo - -149).toNat :=
        Nat.mul_pos (Nat.pos_of_ne_zero hm) (Nat.two_pow_pos _)
      have hexp : (-149 : Int) = x.expo - ((x.expo - -149).toNat : Int) := by
        have := expo_ge x; omega
      have hround := roundPack_mant x hf hm x.sign (x.expo - -149).toNat
      rw [← hexp] at hround
      have hself := ofSignOrd_sign_ord x
      cases hs : x.sign <;> rw [hs] at hround hself
      · have hz : x.signedMant * 2 ^ (x.expo - -149).toNat
            = ((x.mant * 2 ^ (x.expo - -149).toNat : Nat) : Int) := by
          unfold signedMant; rw [hs]; push_cast; simp
        rw [hz]
        rw [if_neg (by omega)]
        have hd : decide (((x.mant * 2 ^ (x.expo - -149).toNat : Nat) : Int) < 0) = false := by
          simp only [decide_eq_false_iff_not]; omega
        rw [hd, Int.natAbs_ofNat, hround, hself, F32.eq_self, hx]
        rfl
      · have hz : x.signedMant * 2 ^ (x.expo - -149).toNat
            = -((x.mant * 2 ^ (x.expo - -149).toNat : Nat) : Int) := by
          unfold signedMant; rw [hs]; push_cast; simp
        rw [hz]
        rw [if_neg (by omega)]
        have hd : decide (-((x.mant * 2 ^ (x.expo - -149).toNat : Nat) : Int) < 0) = true := by
          simp only [decide_eq_true_eq]; omega
        rw [hd, Int.natAbs_neg, Int.natAbs_ofNat, hround, hself, F32.eq_self, hx]
        rfl

theorem eq_add_zero_left (x : F32) (hx : x.isNaN = false) (s : Bool) :
    F32.eq (add (zero s) x) x = true := by
  rw [add_comm_of_not_isNaN (zero s) x (isNaN_zero s) hx]
  exact eq_add_zero_right x hx s

end F32

/-! ## Guards, masks and lanes of the vector operations -/

theorem F32.eq_zero_right (a : F32) : F32.eq a (F32.zero false) = a.isZero := by
  have hz : (F32.zero false).isNaN = false := by decide
  have hz2 : (F32.zero false).isZero = true := by decide
  have hb : (F32.zero false).bits = 0 := by decide
  unfold F32.eq
  rw [hz, hz2, hb]
  unfold F32.isNaN F32.isZero F32.ord
  by_cases h : a.bits % 2147483648 = 0
  · simp [h]
  · have : a.bits ≠ 0 := by omega
    simp [h, this]

/-- The guard of `Unit` and `Normalize` passes to the early return exactly
when every lane is a zero of either sign. -/
theorem Vector4.zero_guard (v : Vector4) :
    _mm_movemask_ps (_mm_cmpeq_ps v._sse _mm_setzero_ps) = 15 ↔ Spec.allZero v = true := by
  rw [movemask_eq_15]
  simp only [_mm_cmpeq_ps, M128.map2, cmpeqLane_sign, _mm_setzero_ps, F32.eq_zero_right,
    Spec.allZero, Bool.and_eq_true, Vector4.x, Vector4.y, Vector4.z, Vector4.w]
  tauto

/-- With mask `0xFF`, `dpps` broadcasts `(p0 + p1) + (p2 + p3)`. -/
theorem dp_ps_255 (a b : M128) :
    _mm_dp_ps a b 255 = _mm_set1_ps
      (F32.add (F32.add (F32.mul a.f0 b.f0) (F32.mul a.f1 b.f1))
        (F32.add (F32.mul a.f2 b.f2) (F32.mul a.f3 b.f3))) := by
  have h0 : Nat.testBit 255 0 = true := by decide
  have h1 : Nat.testBit 255 1 = true := by decide
  have h2 : Nat.testBit 255 2 = true := by decide
  have h3 : Nat.testBit 255 3 = true := by decide
  have h4 : Nat.testBit 255 4 = true := by decide
  have h5 : Nat.testBit 255 5 = true := by decide
  have h6 : Nat.testBit 255 6 = true := by decide
  have h7 : Nat.testBit 255 7 = true := by decide
  simp only [_mm_dp_ps, _mm_set1_ps, h0, h1, h2, h3, h4, h5, h6, h7, if_true]

theorem Vector4.neg_neg (v : Vector4) : v.op_neg.op_neg = v := by
  have hx : ∀ a m : F32, F32.xor (F32.xor a m) m = a := by
    intro a m
    apply F32.ext_bits
    have ha : a.bits < 2 ^ 32 := by simpa using a.lt
    have hm : m.bits < 2 ^ 32 := by simpa using m.lt
    have h1 : a.bits ^^^ m.bits < 4294967296 := by simpa using Nat.xor_lt_two_pow ha hm
    unfold F32.xor F32.ofBits
    simp only [Nat.mod_eq_of_lt h1]
    rw [Nat.xor_assoc, Nat.xor_self, Nat.xor_zero]
    exact Nat.mod_eq_of_lt a.lt
  simp only [Vector4.op_neg, Vector4.ofSSE, _mm_xor_ps, M128.map2, hx]

theorem Vector4.op_eq_self (v : Vector4) : v.op_eq v = true ↔ Spec.noNaN v = true := by
  rw [Vector4.op_eq_iff]
  simp only [F32.eq_self, Spec.noNaN, Bool.and_eq_true]
  tauto

/-- Lanes of `Lerp(a, b, 0.0f)`. -/
theorem Lerp_zero_lanes (a b : Vector4) :
    Lerp a b f32_0 = Vector4.ofXYZW
      (F32.add (F32.mul a.x f32_1) (F32.mul b.x f32_0))
      (F32.add (F32.mul a.y f32_1) (F32.mul b.y f32_0))
      (F32.add (F32.mul a.z f32_1) (F32.mul b.z f32_0))
      (F32.add (F32.mul a.w f32_1) (F32.mul b.w f32_0)) := by
  have h : F32.sub f32_1 f32_0 = f32_1 := by decide!
  simp only [Lerp, h]
  rfl

/-- Lanes of `Lerp(a, b, 1.0f)`. -/
theorem Lerp_one_lanes (a b : Vector4) :
    Lerp a b f32_1 = Vector4.ofXYZW
      (F32.add (F32.mul a.x f32_0) (F32.mul b.x f32_1))
      (F32.add (F32.mul a.y f32_0) (F32.mul b.y f32_1))
      (F32.add (F32.mul a.z f32_0) (F32.mul b.z f32_1))
      (F32.add (F32.mul a.w f32_0) (F32.mul b.w f32_1)) := by
  have h : F32.sub f32_1 f32_1 = f32_0 := by decide
  simp only [Lerp, h]
  rfl

/-- One lane of `Lerp(a, b, 0.0f) == a`. -/
theorem lerp_zero_lane (x y : F32) :
    F32.eq (F32.add (F32.mul x f32_1) (F32.mul y f32_0)) x = true ↔
      (x.isNaN = false ∧ y.isFinite = true) := by
  constructor
  · intro h
    have hx := (F32.not_isNaN_of_eq h).2
    refine ⟨hx, ?_⟩
    cases hy : y.isFinite
    · have := F32.isNaN_add_right (F32.mul x f32_1) _ (F32.isNaN_mul_zero_of_not_isFinite y hy)
      rw [F32.eq_false_of_isNaN_left _ _ this] at h
      exact absurd h (by decide)
    · rfl
  · rintro ⟨hx, hy⟩
    rw [F32.mul_one_of_not_isNaN x hx, F32.mul_zero_of_isFinite y hy]
    exact F32.eq_add_zero_right x hx _

/-- One lane of `Lerp(a, b, 1.0f) == b`. -/
theorem lerp_one_lane (x y : F32) :
    F32.eq (F32.add (F32.mul x f32_0) (F32.mul y f32_1)) y = true ↔
      (x.isFinite = true ∧ y.isNaN = false) := by
  constructor
  · intro h
    have hy := (F32.not_isNaN_of_eq h).2
    refine ⟨?_, hy⟩
    cases hx : x.isFinite
    · have := F32.isNaN_add_left _ (F32.mul y f32_1) (F32.isNaN_mul_zero_of_not_isFinite x hx)
      rw [F32.eq_false_of_isNaN_left _ _ this] at h
      exact absurd h (by decide)
    · rfl
  · rintro ⟨hx, hy⟩
    rw [F32.mul_one_of_not_isNaN y hy, F32.mul_zero_of_isFinite x hx]
    exact F32.eq_add_zero_left y hy _

/-! ## Claims, continued -/

/-- C5 (as stated, refuted): it is not the case that for every vector
`Unit()` returns `v` unchanged exactly when `v` is bit for bit the all-zero
vector and otherwise returns the lanes divided by the norm;
`Vector4(-0.0f, 0.0f, 0.0f, 0.0f)` is returned unchanged. -/
theorem C5_unit_negative_zero_unchanged :
    ¬ ∀ v : Vector4,
      (v.Unit = v ↔ v = Vector4.ofVal f32_0) ∧
      (v ≠ Vector4.ofVal f32_0 → v.Unit = Spec.unitScaled v) := by
  intro h
  have h1 : vNegZero.Unit = vNegZero := by decide
  have h2 : vNegZero ≠ Vector4.ofVal f32_0 := by decide
  exact h2 ((h vNegZero).1.mp h1)

/-- C5 (amended): `Unit()` returns `v` unchanged when every lane of `v` is
`+0.0f` or `-0.0f`, and for every other `v` it returns the vector whose every
lane is `v`'s lane divided by the square root of the sum of the squares of
the four lanes. -/
theorem C5_unit_zero_guard (v : Vector4) :
    v.Unit = if Spec.allZero v = true then v else Spec.unitScaled v := by
  unfold Vector4.Unit Vector4.UnitCall
  by_cases hz : Spec.allZero v = true
  · rw [if_neg (not_not.mpr ((Vector4.zero_guard v).mpr hz)), if_pos hz]
  · rw [if_pos (fun h => hz ((Vector4.zero_guard v).mp h)), if_neg hz, dp_ps_255]
    rfl

/-- C9 (as stated, refuted): `-(-v) == v` is false for the vector whose lanes
are NaN. -/
theorem C9_double_negation_nan :
    ¬ ∀ v : Vector4, v.op_neg.op_neg.op_eq v = true := by
  intro h
  exact absurd (h vNaN) (by decide)

/-- C9 (amended): negating twice gives back the bit patterns of `v`, and
`-(-v) == v` is true exactly for the vectors without a NaN lane (zeros of
either sign included). -/
theorem C9_double_negation (v : Vector4) :
    v.op_neg.op_neg = v ∧ (v.op_neg.op_neg.op_eq v = true ↔ Spec.noNaN v = true) := by
  refine ⟨Vector4.neg_neg v, ?_⟩
  rw [Vector4.neg_neg]
  exact Vector4.op_eq_self v

/-- C10 (as stated, refuted): with `a` zero and `b` infinite,
`Lerp(a, b, 0.0f) == a` is false. -/
theorem C10_lerp_infinite_endpoint :
    ¬ ∀ a b : Vector4, (Lerp a b f32_0).op_eq a = true ∧ (Lerp a b f32_1).op_eq b = true := by
  intro h
  exact absurd (h (Vector4.ofVal f32_0) vInf).1 (by decide!)

/-- C10 (amended): `Lerp(a, b, 0.0f) == a` is true exactly when no lane of `a`
is a NaN and every lane of `b` is finite, and `Lerp(a, b, 1.0f) == b` exactly
when every lane of `a` is finite and no lane of `b` is a NaN; both hold for
vectors whose lanes are all finite. -/
theorem C10_lerp_endpoints (a b : Vector4) :
    ((Lerp a b f32_0).op_eq a = true ↔ (Spec.noNaN a = true ∧ Spec.allFinite b = true)) ∧
    ((Lerp a b f32_1).op_eq b = true ↔ (Spec.allFinite a = true ∧ Spec.noNaN b = true)) ∧
    (Spec.allFinite a = true → Spec.allFinite b = true →
      (Lerp a b f32_0).op_eq a = true ∧ (Lerp a b f32_1).op_eq b = true) := by
  have p0 : (Lerp a b f32_0).op_eq a = true ↔
      (Spec.noNaN a = true ∧ Spec.allFinite b = true) := by
    rw [Lerp_zero_lanes, Vector4.op_eq_iff]
    simp only [Vector4.ofXYZW, _mm_setr_ps, Vector4.x, Vector4.y, Vector4.z, Vector4.w,
      lerp_zero_lane, Spec.noNaN, Spec.allFinite, Bool.and_eq_true, Bool.not_eq_true']
    tauto
  have p1 : (Lerp a b f32_1).op_eq b = true ↔
      (Spec.allFinite a = true ∧ Spec.noNaN b = true) := by
    rw [Lerp_one_lanes, Vector4.op_eq_iff]
    simp only [Vector4.ofXYZW, _mm_setr_ps, Vector4.x, Vector4.y, Vector4.z, Vector4.w,
      lerp_one_lane, Spec.noNaN, Spec.allFinite, Bool.and_eq_true, Bool.not_eq_true']
    tauto
  refine ⟨p0, p1, fun ha hb => ?_⟩
  have na : Spec.noNaN a = true := by
    simp only [Spec.allFinite, Bool.and_eq_true] at ha
    simp [Spec.noNaN, F32.isNaN_of_isFinite, ha]
  have nb : Spec.noNaN b = true := by
    simp only [Spec.allFinite, Bool.and_eq_true] at hb
    simp [Spec.noNaN, F32.isNaN_of_isFinite, hb]
  exact ⟨p0.mpr ⟨na, hb⟩, p1.mpr ⟨ha, nb⟩⟩

theorem C10_lerp_endpoints_witness :
    Spec.allFinite v1234 = true ∧ Spec.allFinite vNegZero = true ∧
    (Lerp v1234 vNegZero f32_0).op_eq v1234 = true ∧
    (Lerp v1234 vNegZero f32_1).op_eq vNegZero = true :=
  ⟨by decide, by decide,
    ((C10_lerp_endpoints v1234 vNegZero).2.2 (by decide) (by decide)).1,
    ((C10_lerp_endpoints v1234 vNegZero).2.2 (by decide) (by decide)).2⟩

/-! ## More lane facts -/

namespace F32

theorem ord_ofSignOrd (s : Bool) (o : Nat) (h : o < 2147483648) : (ofSignOrd s o).ord = o := by
  unfold ofSignOrd ofBits ord
  cases s <;> simp <;> omega

theorem sign_ofSignOrd (s : Bool) (o : Nat) : (ofSignOrd s o).sign = s := by
  unfold ofSignOrd ofBits sign
  cases s <;> simp <;> omega

/-- Rounding never produces a NaN. -/
theorem isNaN_roundPack (s : Bool) (m : Nat) (e : Int) : (roundPack s m e).isNaN = false := by
  unfold roundPack
  split
  · exact isNaN_zero s
  · simp only []
    unfold isNaN
    rw [ord_ofSignOrd _ _ (by omega)]
    simp only [decide_eq_false_iff_not]
    omega

/-- The sum of two operands that are not NaNs is a NaN exactly when they are
infinities of opposite sign. -/
theorem isNaN_add_iff (a b : F32) (ha : a.isNaN = false) (hb : b.isNaN = false) :
    (add a b).isNaN = true ↔ (a.isInf = true ∧ b.isInf = true ∧ a.sign ≠ b.sign) := by
  unfold add
  rw [ha, hb]
  simp only [Bool.false_eq_true, if_false]
  cases hai : a.isInf <;> cases hbi : b.isInf
  · simp only [Bool.false_eq_true, if_false, false_and, iff_false, Bool.not_eq_true]
    split
    · exact isNaN_zero _
    · exact isNaN_roundPack _ _ _
  · simp [hb]
  · simp [ha]
  · by_cases hs : a.sign = b.sign
    · simp [hs, ha]
    · simp [hs, isNaN_defaultNaN]

/-- One lane of `v + w == w + v`. -/
theorem eq_add_comm_iff (a b : F32) :
    F32.eq (add a b) (add b a) = true ↔ (add a b).isNaN = false := by
  constructor
  · intro h
    exact (not_isNaN_of_eq h).1
  · intro h
    have ha : a.isNaN = false := by
      cases ha : a.isNaN
      · rfl
      · rw [isNaN_add_left a b ha] at h
        exact absurd h (by decide)
    have hb : b.isNaN = false := by
      cases hb : b.isNaN
      · rfl
      · rw [isNaN_add_right a b hb] at h
        exact absurd h (by decide)
    rw [← add_comm_of_not_isNaN a b ha hb, F32.eq_self, h]
    rfl

theorem isZero_f32_1 : f32_1.isZero = false := by decide

/-- Dividing by `1.0f` returns every operand that is not a NaN, bit for bit. -/
theorem div_one_of_not_isNaN (x : F32) (hx : x.isNaN = false) : div x f32_1 = x := by
  cases hf : x.isFinite
  · have hi := isInf_of_not x hx hf
    unfold div
    rw [hx, isNaN_f32_1, hi, isInf_f32_1, sign_f32_1]
    simp only [Bool.false_eq_true, if_false, if_true, Bool.xor_false]
    exact inf_sign_of_isInf x hi
  · unfold div
    rw [hx, isNaN_f32_1, isInf_of_isFinite hf, isInf_f32_1, isZero_f32_1, sign_f32_1,
      mant_f32_1, expo_f32_1]
    simp only [Bool.false_eq_true, if_false, Bool.xor_false]
    have h1 : x.mant * 18446744073709551616 / 2 ^ 23 = x.mant * 2 ^ 41 := by
      rw [show (18446744073709551616 : Nat) = 2 ^ 41 * 2 ^ 23 by norm_num, ← Nat.mul_assoc]
      exact Nat.mul_div_cancel _ (by norm_num)
    have h2 : x.mant * 18446744073709551616 % 2 ^ 23 = 0 := by
      rw [show (18446744073709551616 : Nat) = 2 ^ 41 * 2 ^ 23 by norm_num, ← Nat.mul_assoc]
      exact Nat.mul_mod_left _ _
    rw [h1, h2]
    simp only [if_true, Nat.add_zero]
    by_cases hm : x.mant = 0
    · rw [hm]
      simp only [Nat.zero_mul, Nat.mul_zero, roundPack, if_true, zero]
      rw [← ord_eq_zero_of_mant hm]
      exact ofSignOrd_sign_ord x
    · have := roundPack_mant x hf hm x.sign 42
      rw [show 2 * (x.mant * 2 ^ 41) = x.mant * 2 ^ 42 by ring,
        show x.expo - -23 - 65 = x.expo - ((42 : Nat) : Int) by push_cast; ring, this]
      exact ofSignOrd_sign_ord x

theorem isNaN_div_left (a b : F32) (ha : a.isNaN = true) : (div a b).isNaN = true := by
  unfold div
  rw [ha]
  simp only [if_true]
  exact isNaN_quiet a ha

/-- One lane of `v * 1.0f == v`. -/
theorem eq_mul_one_iff (x : F32) : F32.eq (mul x f32_1) x = true ↔ x.isNaN = false := by
  constructor
  · intro h
    exact (not_isNaN_of_eq h).2
  · intro h
    rw [mul_one_of_not_isNaN x h, F32.eq_self, h]
    rfl

/-- One lane of `v / 1.0f == v`. -/
theorem eq_div_one_iff (x : F32) : F32.eq (div x f32_1) x = true ↔ x.isNaN = false := by
  constructor
  · intro h
    exact (not_isNaN_of_eq h).2
  · intro h
    rw [div_one_of_not_isNaN x h, F32.eq_self, h]
    rfl

end F32

/-! ## Claims C11 to C13, C15 to C18 -/

/-- C11 (as stated, refuted): `v + w == w + v` is false when a lane is NaN. -/
theorem C11_add_comm_nan :
    ¬ ∀ v w : Vector4, (v.op_add w).op_eq (w.op_add v) = true := by
  intro h
  exact absurd (h vNaN v1234) (by decide!)

/-- C11 (amended): the sums `v + w` and `w + v` have the same bit patterns
whenever no lane of `v` or `w` is a NaN, and `v + w == w + v` is true exactly
when no lane of the sum is a NaN, that is, when no lane of `v` or `w` is a
NaN and no lane adds two infinities of opposite sign. -/
theorem C11_add_comm (v w : Vector4) :
    (Spec.noNaN v = true → Spec.noNaN w = true → v.op_add w = w.op_add v) ∧
    ((v.op_add w).op_eq (w.op_add v) = true ↔ Spec.noNaN (v.op_add w) = true) ∧
    (Spec.noNaN (v.op_add w) = true ↔
      (Spec.noNaN v = true ∧ Spec.noNaN w = true ∧
        ¬ (v.x.isInf = true ∧ w.x.isInf = true ∧ v.x.sign ≠ w.x.sign) ∧
        ¬ (v.y.isInf = true ∧ w.y.isInf = true ∧ v.y.sign ≠ w.y.sign) ∧
        ¬ (v.z.isInf = true ∧ w.z.isInf = true ∧ v.z.sign ≠ w.z.sign) ∧
        ¬ (v.w.isInf = true ∧ w.w.isInf = true ∧ v.w.sign ≠ w.w.sign))) := by
  refine ⟨?_, ?_, ?_⟩
  · intro hv hw
    simp only [Spec.noNaN, Bool.and_eq_true, Bool.not_eq_true', Vector4.x, Vector4.y,
      Vector4.z, Vector4.w] at hv hw
    simp only [Vector4.op_add, Vector4.ofSSE, _mm_add_ps, M128.map2]
    rw [F32.add_comm_of_not_isNaN _ _ hv.1.1.1 hw.1.1.1,
      F32.add_comm_of_not_isNaN _ _ hv.1.1.2 hw.1.1.2,
      F32.add_comm_of_not_isNaN _ _ hv.1.2 hw.1.2,
      F32.add_comm_of_not_isNaN _ _ hv.2 hw.2]
  · rw [Vector4.op_eq_iff]
    simp only [Vector4.op_add, Vector4.ofSSE, _mm_add_ps, M128.map2, Vector4.x, Vector4.y,
      Vector4.z, Vector4.w, F32.eq_add_comm_iff, Spec.noNaN, Bool.and_eq_true,
      Bool.not_eq_true']
    tauto
  · have key : ∀ a b : F32, (F32.add a b).isNaN = false ↔
        (a.isNaN = false ∧ b.isNaN = false ∧
          ¬ (a.isInf = true ∧ b.isInf = true ∧ a.sign ≠ b.sign)) := by
      intro a b
      cases ha : a.isNaN
      · cases hb : b.isNaN
        · have := F32.isNaN_add_iff a b ha hb
          constructor
          · intro h
            refine ⟨rfl, rfl, fun hc => ?_⟩
            rw [this.mpr hc] at h
            exact absurd h (by decide)
          · rintro ⟨_, _, hc⟩
            cases hs : (F32.add a b).isNaN
            · rfl
            · exact absurd (this.mp hs) hc
        · simp [F32.isNaN_add_right a b hb]
      · simp [F32.isNaN_add_left a b ha]
    simp only [Vector4.op_add, Vector4.ofSSE, _mm_add_ps, M128.map2, Vector4.x, Vector4.y,
      Vector4.z, Vector4.w, Spec.noNaN, Bool.and_eq_true, Bool.not_eq_true', key]
    tauto

theorem C11_add_comm_witness :
    Spec.noNaN v1234 = true ∧ Spec.noNaN vNegZero = true ∧
    v1234.op_add vNegZero = vNegZero.op_add v1234 :=
  ⟨by decide, by decide, (C11_add_comm v1234 vNegZero).1 (by decide) (by decide)⟩

/-- C12 (as stated, refuted): `v * 1.0f == v` is false when a lane is NaN. -/
theorem C12_scalar_one_nan :
    ¬ ∀ v : Vector4,
      (v.op_mul_scalar f32_1).op_eq v = true ∧ (v.op_div_scalar f32_1).op_eq v = true := by
  intro h
  exact absurd (h vNaN).1 (by decide!)

/-- C12 (amended): `v * 1.0f` and `v / 1.0f` have exactly the bit patterns of
`v` whenever no lane of `v` is a NaN, and each of `v * 1.0f == v` and
`v / 1.0f == v` is true exactly for the vectors without a NaN lane. -/
theorem C12_scalar_one (v : Vector4) :
    (Spec.noNaN v = true → v.op_mul_scalar f32_1 = v ∧ v.op_div_scalar f32_1 = v) ∧
    ((v.op_mul_scalar f32_1).op_eq v = true ↔ Spec.noNaN v = true) ∧
    ((v.op_div_scalar f32_1).op_eq v = true ↔ Spec.noNaN v = true) := by
  refine ⟨?_, ?_, ?_⟩
  · intro hv
    simp only [Spec.noNaN, Bool.and_eq_true, Bool.not_eq_true', Vector4.x, Vector4.y,
      Vector4.z, Vector4.w] at hv
    simp only [Vector4.op_mul_scalar, Vector4.op_div_scalar, Vector4.ofSSE, _mm_mul_ps,
      _mm_div_ps, _mm_set1_ps, M128.map2]
    rw [F32.mul_one_of_not_isNaN _ hv.1.1.1, F32.mul_one_of_not_isNaN _ hv.1.1.2,
      F32.mul_one_of_not_isNaN _ hv.1.2, F32.mul_one_of_not_isNaN _ hv.2,
      F32.div_one_of_not_isNaN _ hv.1.1.1, F32.div_one_of_not_isNaN _ hv.1.1.2,
      F32.div_one_of_not_isNaN _ hv.1.2, F32.div_one_of_not_isNaN _ hv.2]
    exact ⟨rfl, rfl⟩
  · rw [Vector4.op_eq_iff]
    simp only [Vector4.op_mul_scalar, Vector4.ofSSE, _mm_mul_ps, _mm_set1_ps, M128.map2,
      Vector4.x, Vector4.y, Vector4.z, Vector4.w, F32.eq_mul_one_iff, Spec.noNaN,
      Bool.and_eq_true, Bool.not_eq_true']
    tauto
  · rw [Vector4.op_eq_iff]
    simp only [Vector4.op_div_scalar, Vector4.ofSSE, _mm_div_ps, _mm_set1_ps, M128.map2,
      Vector4.x, Vector4.y, Vector4.z, Vector4.w, F32.eq_div_one_iff, Spec.noNaN,
      Bool.and_eq_true, Bool.not_eq_true']
    tauto

theorem C12_scalar_one_witness :
    Spec.noNaN v1234 = true ∧ v1234.op_mul_scalar f32_1 = v1234 ∧
    v1234.op_div_scalar f32_1 = v1234 :=
  ⟨by decide, (C12_scalar_one v1234).1 (by decide)⟩

/-- C15: for every index `i` the subscript `operator[]` applies to `data` is
the minimum of `i` and 3; it lies in `0..3` for `i ≥ 0`, and a negative `i`
is passed through unchanged, where `data` has no element. -/
theorem C15_subscript (v : Vector4) (i : Int) :
    Vector4.subscript i = min i 3 ∧
    (0 ≤ i → 0 ≤ Vector4.subscript i ∧ Vector4.subscript i ≤ 3 ∧
      (v.op_index i).isSome = true ∧ ∀ val, (v.op_index_store i val).isSome = true) ∧
    (i < 0 → Vector4.subscript i = i ∧ Vector4.subscript i < 0 ∧
      v.op_index i = none ∧ ∀ val, v.op_index_store i val = none) := by
  have hm : Min i 3 = min i 3 := by
    unfold Min
    split <;> omega
  refine ⟨hm, ?_, ?_⟩
  · intro h0
    have hcases : Min i 3 = 0 ∨ Min i 3 = 1 ∨ Min i 3 = 2 ∨ Min i 3 = 3 := by
      rw [hm]; omega
    refine ⟨by unfold Vector4.subscript; rw [hm]; omega,
      by unfold Vector4.subscript; rw [hm]; omega, ?_, ?_⟩
    · unfold Vector4.op_index Vector4.data
      rcases hcases with h | h | h | h <;> rw [h] <;> simp
    · intro val
      unfold Vector4.op_index_store Vector4.dataStore
      rcases hcases with h | h | h | h <;> rw [h] <;> simp
  · intro hneg
    have hi : Min i 3 = i := by rw [hm]; omega
    refine ⟨hi, by unfold Vector4.subscript; rw [hi]; exact hneg, ?_, ?_⟩
    · unfold Vector4.op_index Vector4.data
      rw [hi]
      simp only [show ¬ i = 0 by omega, show ¬ i = 1 by omega, show ¬ i = 2 by omega,
        show ¬ i = 3 by omega, if_false]
    · intro val
      unfold Vector4.op_index_store Vector4.dataStore
      rw [hi]
      simp only [show ¬ i = 0 by omega, show ¬ i = 1 by omega, show ¬ i = 2 by omega,
        show ¬ i = 3 by omega, if_false]

theorem C15_subscript_witness :
    (-1 : Int) < 0 ∧ Vector4.subscript (-1) = -1 ∧ v1234.op_index (-1) = none ∧
    (0 : Int) ≤ 7 ∧ Vector4.subscript 7 ≤ 3 :=
  ⟨by decide, ((C15_subscript v1234 (-1)).2.2 (by decide)).1,
    ((C15_subscript v1234 (-1)).2.2 (by decide)).2.2.1, by decide,
    ((C15_subscript v1234 7).2.1 (by decide)).2.1⟩

/-- C16: for every vector, `SqrLength()` is the sum of the squares of the four
lanes, formed as `(x*x + y*y) + (z*z + w*w)` in `f32` arithmetic, and
`Length()` is the `f32` square root of that same value. -/
theorem C16_length_and_sqrLength (v : Vector4) :
    v.SqrLength = F32.add (F32.add (F32.mul v.x v.x) (F32.mul v.y v.y))
      (F32.add (F32.mul v.z v.z) (F32.mul v.w v.w)) ∧
    v.Length = F32.sqrt v.SqrLength := by
  unfold Vector4.SqrLength Vector4.Length SSE.DP_MASK_V4
  rw [dp_ps_255]
  exact ⟨rfl, rfl⟩

/-- C18: for every pair of vectors, NaN lanes included, `v != w` is the
negation of `v == w`, so exactly one of the two is true. -/
theorem C18_ne_is_not_eq (v w : Vector4) :
    v.op_ne w = !(v.op_eq w) ∧
    ((v.op_eq w = true ∧ v.op_ne w = false) ∨ (v.op_eq w = false ∧ v.op_ne w = true)) := by
  unfold Vector4.op_ne Vector4.op_eq
  by_cases h : _mm_movemask_ps (_mm_cmpeq_ps v._sse w._sse) = 15 <;> simp [h]

/-! ## Operand order of the commutative lane operations -/

/-- Where both operands are NaNs the operand order shows in the payload:
`Vector4(NaN payload 1) * Vector4(NaN payload 2)` in the two orders. -/
theorem Vector4.op_mul_order_shows :
    (Vector4.ofVal (F32.ofBits 2143289345)).op_mul (Vector4.ofVal (F32.ofBits 2143289346)) false
      ≠ (Vector4.ofVal (F32.ofBits 2143289345)).op_mul (Vector4.ofVal (F32.ofBits 2143289346))
          true := by
  decide

namespace F32

theorem absRat_nonneg (a : F32) : 0 ≤ a.absRat := by
  unfold absRat
  positivity

theorem two_zpow_pos (e : Int) : (0 : ℚ) < 2 ^ e := zpow_pos (by norm_num) e

theorem absRat_zero (s : Bool) : (zero s).absRat = 0 := by
  cases s <;> decide!

theorem isFinite_zero (s : Bool) : (zero s).isFinite = true := by
  cases s <;> decide

/-- The value encoded by a biased exponent `Q` and a significand `sig` that
may have carried into the next binade. -/
theorem decode_ofSignOrd (s : Bool) (Q sig : Nat) (h1 : sig ≤ 16777216)
    (h2 : Q = 0 ∨ 8388608 ≤ sig) (h3 : Q ≤ 252) :
    (ofSignOrd s (Q * 8388608 + sig)).isFinite = true ∧
    (ofSignOrd s (Q * 8388608 + sig)).absRat = (sig : ℚ) * 2 ^ ((Q : Int) - 149) := by
  have ho : Q * 8388608 + sig < 2147483648 := by omega
  have hord := ord_ofSignOrd s _ ho
  constructor
  · unfold isFinite
    rw [hord]
    simp only [decide_eq_true_eq]
    omega
  · unfold absRat mant expo expField manField
    rw [hord]
    by_cases c1 : sig < 8388608
    · have hQ : Q = 0 := by omega
      subst hQ
      have e1 : (0 * 8388608 + sig) / 8388608 = 0 := by omega
      have e2 : (0 * 8388608 + sig) % 8388608 = sig := by omega
      rw [e1, e2]
      simp
    · by_cases c2 : sig = 16777216
      · subst c2
        have e1 : (Q * 8388608 + 16777216) / 8388608 = Q + 2 := by omega
        have e2 : (Q * 8388608 + 16777216) % 8388608 = 0 := by omega
        rw [e1, e2]
        have e3 : ((max (Q + 2) 1 : Nat) : Int) - 150 = ((Q : Int) - 149) + 1 := by omega
        rw [if_neg (by omega), e3, zpow_add_one₀ (by norm_num)]
        push_cast
        ring
      · have e1 : (Q * 8388608 + sig) / 8388608 = Q + 1 := by omega
        have e2 : (Q * 8388608 + sig) % 8388608 = sig - 8388608 := by omega
        rw [e1, e2]
        have e3 : ((max (Q + 1) 1 : Nat) : Int) - 150 = (Q : Int) - 149 := by omega
        have e4 : 8388608 + (sig - 8388608) = sig := by omega
        rw [if_neg (by omega), e3, e4]

/-- Dropping `k` low bits with round-half-to-even moves the value by at most
half a unit of the kept bits. -/
theorem shift_round (m k : Nat) (hk : 0 < k) :
    m / 2 ^ k ≤ (if 2 ^ (k - 1) < m % 2 ^ k ∨ (m % 2 ^ k = 2 ^ (k - 1) ∧ m / 2 ^ k % 2 = 1)
        then m / 2 ^ k + 1 else m / 2 ^ k) ∧
    (if 2 ^ (k - 1) < m % 2 ^ k ∨ (m % 2 ^ k = 2 ^ (k - 1) ∧ m / 2 ^ k % 2 = 1)
        then m / 2 ^ k + 1 else m / 2 ^ k) ≤ m / 2 ^ k + 1 ∧
    2 * ((if 2 ^ (k - 1) < m % 2 ^ k ∨ (m % 2 ^ k = 2 ^ (k - 1) ∧ m / 2 ^ k % 2 = 1)
        then m / 2 ^ k + 1 else m / 2 ^ k) * 2 ^ k) ≤ 2 * m + 2 ^ k ∧
    2 * m ≤ 2 * ((if 2 ^ (k - 1) < m % 2 ^ k ∨ (m % 2 ^ k = 2 ^ (k - 1) ∧ m / 2 ^ k % 2 = 1)
        then m / 2 ^ k + 1 else m / 2 ^ k) * 2 ^ k) + 2 ^ k := by
  have hdm : 2 ^ k * (m / 2 ^ k) + m % 2 ^ k = m := Nat.div_add_mod m (2 ^ k)
  have hP : 2 ^ k = 2 * 2 ^ (k - 1) := by
    rw [← pow_succ']
    congr 1
    omega
  have hr : m % 2 ^ k < 2 ^ k := Nat.mod_lt _ (Nat.two_pow_pos k)
  generalize m / 2 ^ k = t at *
  generalize m % 2 ^ k = r at *
  generalize 2 ^ (k - 1) = h at *
  generalize 2 ^ k = P at *
  subst hP
  split
  · rename_i hc
    have hge : h ≤ r := by
      rcases hc with hc | hc
      · omega
      · omega
    refine ⟨by omega, by omega, ?_, ?_⟩
    · have : (t + 1) * (2 * h) = 2 * h * t + 2 * h := by ring
      rw [this]
      omega
    · have : (t + 1) * (2 * h) = 2 * h * t + 2 * h := by ring
      rw [this]
      omega
  · rename_i hc
    have hle : r ≤ h := by
      by_contra hcon
      exact hc (Or.inl (by omega))
    refine ⟨by omega, by omega, ?_, ?_⟩
    · have : t * (2 * h) = 2 * h * t := by ring
      rw [this]
      omega
    · have : t * (2 * h) = 2 * h * t := by ring
      rw [this]
      omega

/-- The result of `roundPack` on a nonzero significand, with the quantum
exponent named. -/
theorem roundPack_eq (s : Bool) (m : Nat) (e q : Int) (hm : m ≠ 0)
    (hq : q = max (e + (ilog2 m : Int) - 23) (-149)) :
    roundPack s m e = ofSignOrd s (min ((q + 149).toNat * 8388608 +
      (if q ≤ e then m * 2 ^ (e - q).toNat
        else if 2 ^ ((q - e).toNat - 1) < m % 2 ^ (q - e).toNat ∨
            (m % 2 ^ (q - e).toNat = 2 ^ ((q - e).toNat - 1) ∧ m / 2 ^ (q - e).toNat % 2 = 1)
          then m / 2 ^ (q - e).toNat + 1 else m / 2 ^ (q - e).toNat)) 2139095040) := by
  subst hq
  unfold roundPack
  rw [if_neg hm]

end F32

namespace F32

/-- Rounding error of `roundPack` below the overflow threshold: the result is
finite, keeps the sign, and is within half a unit in the last place. -/
theorem roundPack_spec (s : Bool) (m : Nat) (e : Int)
    (hx : (m : ℚ) * 2 ^ e < 2 ^ (127 : Int)) :
    (roundPack s m e).isFinite = true ∧ (roundPack s m e).sign = s ∧
    |(roundPack s m e).absRat - m * 2 ^ e| ≤ m * 2 ^ e / 16777216 + 2 ^ (-150 : Int) ∧
    ((2 : ℚ) ^ (-126 : Int) ≤ m * 2 ^ e →
      |(roundPack s m e).absRat - m * 2 ^ e| ≤ m * 2 ^ e / 16777216) := by
  have hc : (0 : ℚ) < 2 ^ e := two_zpow_pos e
  by_cases hm : m = 0
  · subst hm
    have h0 : roundPack s 0 e = zero s := by simp [roundPack]
    rw [h0, absRat_zero]
    refine ⟨isFinite_zero s, sign_zero s, ?_, ?_⟩
    · simp
      positivity
    · intro h
      simp at h
      have := two_zpow_pos (-126)
      linarith
  · obtain ⟨hL1, hL2⟩ := ilog2_spec m hm
    obtain ⟨q, hq⟩ : ∃ q : Int, q = max (e + (ilog2 m : Int) - 23) (-149) := ⟨_, rfl⟩
    rw [roundPack_eq s m e q hm hq]
    generalize hLdef : ilog2 m = L at hL1 hL2 hq
    have hL1q : ((2 : ℚ) ^ L) ≤ (m : ℚ) := by exact_mod_cast hL1
    have hL2q : (m : ℚ) < (2 : ℚ) ^ (L + 1) := by exact_mod_cast hL2
    have hEq : (2 : ℚ) ^ (e + (L : Int)) = 2 ^ e * 2 ^ L := by
      rw [zpow_add₀ (by norm_num), zpow_natCast]
    have hE126 : e + (L : Int) ≤ 126 := by
      by_contra hcon
      have h1 : (2 : ℚ) ^ (127 : Int) ≤ 2 ^ (e + (L : Int)) :=
        zpow_le_zpow_right₀ (by norm_num) (by omega)
      have h2 : (2 : ℚ) ^ e * 2 ^ L ≤ m * 2 ^ e := by
        rw [mul_comm]
        exact mul_le_mul_of_nonneg_right hL1q hc.le
      rw [hEq] at h1
      linarith
    have hq1 : -149 ≤ q := by omega
    have hq2 : e + (L : Int) - 23 ≤ q := by omega
    have hq3 : q = -149 ∨ q = e + (L : Int) - 23 := by omega
    obtain ⟨Q, hQ⟩ : ∃ Q : Nat, (Q : Int) = q + 149 := ⟨(q + 149).toNat, by omega⟩
    have hQn : (q + 149).toNat = Q := by omega
    have hQ252 : Q ≤ 252 := by omega
    rw [hQn]
    have hqQ : q = (Q : Int) - 149 := by omega
    by_cases hqe : q ≤ e
    · -- the value is representable: no bits are dropped
      rw [if_pos hqe]
      obtain ⟨j, hj⟩ : ∃ j : Nat, (j : Int) = e - q := ⟨(e - q).toNat, by omega⟩
      have hjn : (e - q).toNat = j := by omega
      rw [hjn]
      have hsig24 : m * 2 ^ j ≤ 16777216 := by
        have h1 : m * 2 ^ j < 2 ^ (L + 1) * 2 ^ j :=
          Nat.mul_lt_mul_of_pos_right hL2 (Nat.two_pow_pos j)
        rw [← pow_add] at h1
        have h2 : 2 ^ (L + 1 + j) ≤ 2 ^ 24 :=
          Nat.pow_le_pow_right (by norm_num) (by omega)
        have h3 : (2 : Nat) ^ 24 = 16777216 := by norm_num
        omega
      have hsig23 : Q = 0 ∨ 8388608 ≤ m * 2 ^ j := by
        rcases hq3 with h | h
        · left; omega
        · right
          have hLj : L + j = 23 := by omega
          have h1 : 2 ^ L * 2 ^ j ≤ m * 2 ^ j := Nat.mul_le_mul_right _ hL1
          rw [← pow_add, hLj] at h1
          norm_num at h1
          exact h1
      obtain ⟨hfin, hval⟩ := decode_ofSignOrd s Q (m * 2 ^ j) hsig24 hsig23 hQ252
      have hmin : min (Q * 8388608 + m * 2 ^ j) 2139095040 = Q * 8388608 + m * 2 ^ j := by
        omega
      rw [hmin]
      have hexact : (ofSignOrd s (Q * 8388608 + m * 2 ^ j)).absRat = m * 2 ^ e := by
        rw [hval, ← hqQ]
        have : e = (j : Int) + q := by omega
        rw [this, zpow_add₀ (by norm_num), zpow_natCast]
        push_cast
        ring
      rw [hexact]
      refine ⟨hfin, sign_ofSignOrd _ _, ?_, ?_⟩
      · simp
        positivity
      · intro _
        simp
        positivity
    · -- `k` low bits are dropped
      rw [if_neg hqe]
      obtain ⟨k, hk⟩ : ∃ k : Nat, (k : Int) = q - e := ⟨(q - e).toNat, by omega⟩
      have hkn : (q - e).toNat = k := by omega
      have hkpos : 0 < k := by omega
      rw [hkn]
      obtain ⟨hs1, hs2, hs3, hs4⟩ := shift_round m k hkpos
      generalize hsig : (if 2 ^ (k - 1) < m % 2 ^ k ∨ (m % 2 ^ k = 2 ^ (k - 1) ∧ m / 2 ^ k % 2 = 1)
        then m / 2 ^ k + 1 else m / 2 ^ k) = sig at hs1 hs2 hs3 hs4
      have ht24 : m / 2 ^ k < 16777216 := by
        have h1 : m / 2 ^ k * 2 ^ k ≤ m := Nat.div_mul_le_self m (2 ^ k)
        have h2 : 2 ^ (L + 1) ≤ 2 ^ (24 + k) :=
          Nat.pow_le_pow_right (by norm_num) (by omega)
        rw [pow_add 2 24 k] at h2
        have h3 : m / 2 ^ k * 2 ^ k < 2 ^ 24 * 2 ^ k :=
          lt_of_le_of_lt h1 (lt_of_lt_of_le hL2 h2)
        have h4 := Nat.lt_of_mul_lt_mul_right h3
        norm_num at h4
        exact h4
      have hsig24 : sig ≤ 16777216 := by omega
      have hsig23 : Q = 0 ∨ 8388608 ≤ sig := by
        rcases hq3 with h | h
        · left; omega
        · right
          have hLk : L = 23 + k := by omega
          have h1 : 2 ^ 23 * 2 ^ k ≤ m := by
            rw [← pow_add, ← hLk]
            exact hL1
          have h2 : 2 ^ 23 ≤ m / 2 ^ k := (Nat.le_div_iff_mul_le (Nat.two_pow_pos k)).mpr h1
          norm_num at h2
          omega
      obtain ⟨hfin, hval⟩ := decode_ofSignOrd s Q sig hsig24 hsig23 hQ252
      have hmin : min (Q * 8388608 + sig) 2139095040 = Q * 8388608 + sig := by omega
      rw [hmin]
      have hqk : (2 : ℚ) ^ q = 2 ^ e * 2 ^ k := by
        have : q = e + (k : Int) := by omega
        rw [this, zpow_add₀ (by norm_num), zpow_natCast]
      have hval2 : (ofSignOrd s (Q * 8388608 + sig)).absRat = 2 ^ e * ((sig : ℚ) * 2 ^ k) := by
        rw [hval, ← hqQ, hqk]
        ring
      have hs3q : 2 * ((sig : ℚ) * 2 ^ k) ≤ 2 * m + 2 ^ k := by exact_mod_cast hs3
      have hs4q : 2 * (m : ℚ) ≤ 2 * ((sig : ℚ) * 2 ^ k) + 2 ^ k := by exact_mod_cast hs4
      have herr : |(ofSignOrd s (Q * 8388608 + sig)).absRat - m * 2 ^ e| ≤ 2 ^ e * 2 ^ k / 2 := by
        rw [hval2, abs_le]
        constructor
        · have := mul_le_mul_of_nonneg_left hs4q hc.le
          linarith
        · have := mul_le_mul_of_nonneg_left hs3q hc.le
          linarith
      refine ⟨hfin, sign_ofSignOrd _ _, ?_, ?_⟩
      · rcases hq3 with h | h
        · have h150 : (2 : ℚ) ^ e * 2 ^ k / 2 = 2 ^ (-150 : Int) := by
            rw [← hqk, h]
            norm_num
          have hxnn : (0 : ℚ) ≤ m * 2 ^ e / 16777216 := by positivity
          linarith
        · have hLk : L = 23 + k := by omega
          have h1 : (2 : ℚ) ^ (23 + k) ≤ m := by rw [← hLk]; exact hL1q
          rw [pow_add] at h1
          have h2 := mul_le_mul_of_nonneg_left h1 hc.le
          have h3 : (0 : ℚ) < 2 ^ (-150 : Int) := two_zpow_pos _
          norm_num at h2
          linarith
      · intro hbig
        by_cases hq4 : q = e + (L : Int) - 23
        · have hLk : L = 23 + k := by omega
          have h1 : (2 : ℚ) ^ (23 + k) ≤ m := by rw [← hLk]; exact hL1q
          rw [pow_add] at h1
          have h2 := mul_le_mul_of_nonneg_left h1 hc.le
          norm_num at h2
          linarith
        · exfalso
          have hlt : e + (L : Int) + 1 ≤ -126 := by omega
          have h1 : (2 : ℚ) ^ (e + ((L + 1 : Nat) : Int)) ≤ 2 ^ (-126 : Int) :=
            zpow_le_zpow_right₀ (by norm_num) (by push_cast; omega)
          rw [zpow_add₀ (by norm_num), zpow_natCast] at h1
          have h2 : (m : ℚ) * 2 ^ e < 2 ^ (L + 1) * 2 ^ e :=
            mul_lt_mul_of_pos_right hL2q hc
          linarith

end F32

namespace F32

theorem absRat_def (a : F32) : a.absRat = (a.mant : ℚ) * 2 ^ a.expo := rfl

/-- Rounding error of a product of finite operands. -/
theorem mul_spec (a b : F32) (ha : a.isFinite = true) (hb : b.isFinite = true)
    (hx : a.absRat * b.absRat < 2 ^ (127 : Int)) :
    (mul a b).isFinite = true ∧ (mul a b).sign = Bool.xor a.sign b.sign ∧
    |(mul a b).absRat - a.absRat * b.absRat| ≤
      a.absRat * b.absRat / 16777216 + 2 ^ (-150 : Int) := by
  have hr : mul a b = roundPack (Bool.xor a.sign b.sign) (a.mant * b.mant) (a.expo + b.expo) := by
    unfold mul
    rw [isNaN_of_isFinite ha, isNaN_of_isFinite hb, isInf_of_isFinite ha, isInf_of_isFinite hb]
    simp
  have hv : ((a.mant * b.mant : Nat) : ℚ) * 2 ^ (a.expo + b.expo) = a.absRat * b.absRat := by
    rw [absRat_def, absRat_def, zpow_add₀ (by norm_num)]
    push_cast
    ring
  rw [hr]
  have := roundPack_spec (Bool.xor a.sign b.sign) (a.mant * b.mant) (a.expo + b.expo)
    (by rw [hv]; exact hx)
  rw [hv] at this
  exact ⟨this.1, this.2.1, this.2.2.1⟩

theorem signedMant_of_sign_false (a : F32) (h : a.sign = false) :
    a.signedMant = (a.mant : Int) := by
  unfold signedMant
  rw [h]
  simp

/-- Rounding error of a sum of finite operands with clear sign bits. -/
theorem add_spec (a b : F32) (ha : a.isFinite = true) (hb : b.isFinite = true)
    (sa : a.sign = false) (sb : b.sign = false)
    (hx : a.absRat + b.absRat < 2 ^ (127 : Int)) :
    (add a b).isFinite = true ∧ (add a b).sign = false ∧
    |(add a b).absRat - (a.absRat + b.absRat)| ≤
      (a.absRat + b.absRat) / 16777216 + 2 ^ (-150 : Int) := by
  obtain ⟨e, he⟩ : ∃ e : Int, e = min a.expo b.expo := ⟨_, rfl⟩
  obtain ⟨ja, hja⟩ : ∃ j : Nat, (j : Int) = a.expo - e := ⟨(a.expo - e).toNat, by omega⟩
  obtain ⟨jb, hjb⟩ : ∃ j : Nat, (j : Int) = b.expo - e := ⟨(b.expo - e).toNat, by omega⟩
  have hjan : (a.expo - e).toNat = ja := by omega
  have hjbn : (b.expo - e).toNat = jb := by omega
  have hr : add a b = roundPack false (a.mant * 2 ^ ja + b.mant * 2 ^ jb) e := by
    unfold add
    rw [isNaN_of_isFinite ha, isNaN_of_isFinite hb, isInf_of_isFinite ha, isInf_of_isFinite hb,
      signedMant_of_sign_false a sa, signedMant_of_sign_false b sb, sa, sb]
    simp only [Bool.false_eq_true, if_false, ← he, hjan, hjbn]
    have hz : ((a.mant : Int) * 2 ^ ja + (b.mant : Int) * 2 ^ jb) =
        ((a.mant * 2 ^ ja + b.mant * 2 ^ jb : Nat) : Int) := by push_cast; ring
    rw [hz]
    by_cases h0 : a.mant * 2 ^ ja + b.mant * 2 ^ jb = 0
    · rw [h0]
      simp [roundPack]
    · have h1 : ¬ (((a.mant * 2 ^ ja + b.mant * 2 ^ jb : Nat) : Int) = 0) := by
        exact_mod_cast h0
      rw [if_neg h1, Int.natAbs_ofNat]
      have h2 : decide (((a.mant * 2 ^ ja + b.mant * 2 ^ jb : Nat) : Int) < 0) = false := by
        simp only [decide_eq_false_iff_not]
        omega
      rw [h2]
  have hv : ((a.mant * 2 ^ ja + b.mant * 2 ^ jb : Nat) : ℚ) * 2 ^ e
      = a.absRat + b.absRat := by
    rw [absRat_def, absRat_def]
    have h1 : a.expo = (ja : Int) + e := by omega
    have h2 : b.expo = (jb : Int) + e := by omega
    rw [h1, h2, zpow_add₀ (by norm_num), zpow_add₀ (by norm_num), zpow_natCast, zpow_natCast]
    push_cast
    ring
  rw [hr]
  have := roundPack_spec false (a.mant * 2 ^ ja + b.mant * 2 ^ jb) e (by rw [hv]; exact hx)
  rw [hv] at this
  exact ⟨this.1, this.2.1, this.2.2.1⟩

end F32

namespace F32

theorem isqrtAux_spec (n : Nat) : ∀ (b r : Nat), r * r ≤ n → n < (r + 2 ^ b) * (r + 2 ^ b) →
    isqrtAux n b r * isqrtAux n b r ≤ n ∧ n < (isqrtAux n b r + 1) * (isqrtAux n b r + 1) := by
  intro b
  induction b with
  | zero =>
    intro r h1 h2
    unfold isqrtAux
    exact ⟨h1, by simpa using h2⟩
  | succ b ih =>
    intro r h1 h2
    unfold isqrtAux
    by_cases hc : (r + 2 ^ b) * (r + 2 ^ b) ≤ n
    · rw [if_pos hc]
      apply ih _ hc
      have : r + 2 ^ b + 2 ^ b = r + 2 ^ (b + 1) := by rw [pow_succ]; omega
      rw [this]
      exact h2
    · rw [if_neg hc]
      exact ih _ h1 (by omega)

/-- The integer square root is the floor of the square root. -/
theorem isqrt_spec (n : Nat) : isqrt n * isqrt n ≤ n ∧ n < (isqrt n + 1) * (isqrt n + 1) := by
  unfold isqrt
  apply isqrtAux_spec
  · omega
  · by_cases h0 : n = 0
    · subst h0
      have : 0 < (0 + 2 ^ (ilog2 0 / 2 + 1)) := by
        have := Nat.two_pow_pos (ilog2 0 / 2 + 1)
        omega
      exact Nat.mul_pos this this
    · obtain ⟨_, h2⟩ := ilog2_spec n h0
      have h3 : 2 ^ (ilog2 n + 1) ≤ 2 ^ ((ilog2 n / 2 + 1) + (ilog2 n / 2 + 1)) :=
        Nat.pow_le_pow_right (by norm_num) (by omega)
      rw [pow_add 2 (ilog2 n / 2 + 1) (ilog2 n / 2 + 1)] at h3
      simp only [Nat.zero_add]
      exact lt_of_lt_of_le h2 h3

theorem isZero_of_mant_ne_zero {b : F32} (h : b.mant ≠ 0) : b.isZero = false := by
  unfold isZero
  simp only [decide_eq_false_iff_not]
  intro h0
  apply h
  unfold mant expField manField
  rw [h0]
  rfl

theorem mant_lt (a : F32) : a.mant < 16777216 := by
  unfold mant expField manField
  split <;> omega

theorem absRat_pos_of_mant_ne_zero {b : F32} (h : b.mant ≠ 0) : 0 < b.absRat := by
  unfold absRat
  have : (0 : ℚ) < b.mant := by exact_mod_cast Nat.pos_of_ne_zero h
  have := two_zpow_pos b.expo
  positivity

/-- Rounding error of a quotient of finite operands, the divisor not zero. -/
theorem div_spec (a b : F32) (ha : a.isFinite = true) (hb : b.isFinite = true)
    (hb0 : b.mant ≠ 0) (hx : a.absRat / b.absRat ≤ 2 ^ (126 : Int)) :
    (div a b).isFinite = true ∧
    |(div a b).absRat - a.absRat / b.absRat| ≤
      a.absRat / b.absRat / 8388608 + 2 ^ (-150 : Int) := by
  obtain ⟨n, hn⟩ : ∃ n : Nat, n = a.mant * 18446744073709551616 := ⟨_, rfl⟩
  obtain ⟨st, hst⟩ : ∃ st : Nat, st = if n % b.mant = 0 then 0 else 1 := ⟨_, rfl⟩
  have hr : div a b = roundPack (Bool.xor a.sign b.sign) (2 * (n / b.mant) + st)
      (a.expo - b.expo - 65) := by
    unfold div
    rw [isNaN_of_isFinite ha, isNaN_of_isFinite hb, isInf_of_isFinite ha, isInf_of_isFinite hb,
      isZero_of_mant_ne_zero hb0, hst, hn]
    simp
  have hc : (0 : ℚ) < 2 ^ (a.expo - b.expo - 65) := two_zpow_pos _
  have hmb : (0 : ℚ) < b.mant := by exact_mod_cast Nat.pos_of_ne_zero hb0
  have hX : a.absRat / b.absRat = 2 * (n : ℚ) / b.mant * 2 ^ (a.expo - b.expo - 65) := by
    rw [absRat_def, absRat_def, hn]
    have h1 : a.expo = (a.expo - b.expo - 65) + 65 + b.expo := by ring
    have hb2 : (0 : ℚ) < 2 ^ b.expo := two_zpow_pos _
    conv_lhs => rw [h1]
    rw [zpow_add₀ (by norm_num), zpow_add₀ (by norm_num)]
    push_cast
    field_simp
    norm_num
    ring
  -- the integer quotient with its sticky bit is within one unit of the exact quotient
  have hdm : b.mant * (n / b.mant) + n % b.mant = n := Nat.div_add_mod n b.mant
  have hrem : n % b.mant < b.mant := Nat.mod_lt _ (Nat.pos_of_ne_zero hb0)
  have hmb24 := mant_lt b
  have hmbK : n % b.mant ≠ 0 → b.mant * 2199023255552 ≤ 2 * n := by
    intro h0
    have hma : 1 ≤ a.mant := by
      by_contra hcon
      have : a.mant = 0 := by omega
      rw [this] at hn
      simp at hn
      rw [hn] at h0
      simp at h0
    omega
  have e0 : (2 * (n / b.mant) + 0) * b.mant * 2199023255552 =
      2 * 2199023255552 * (b.mant * (n / b.mant)) := by ring
  have e1 : (2 * (n / b.mant) + 1) * b.mant * 2199023255552 =
      2 * 2199023255552 * (b.mant * (n / b.mant)) + b.mant * 2199023255552 := by ring
  have hN1 : (2 * (n / b.mant) + st) * b.mant * 2199023255552 ≤
      2 * n * 2199023255552 + 2 * n := by
    by_cases h0 : n % b.mant = 0
    · rw [hst, if_pos h0, e0]
      generalize b.mant * (n / b.mant) = T at hdm
      omega
    · rw [hst, if_neg h0, e1]
      have := hmbK h0
      generalize b.mant * (n / b.mant) = T at hdm
      omega
  have hN2 : 2 * n * 2199023255552 ≤
      (2 * (n / b.mant) + st) * b.mant * 2199023255552 + 2 * n := by
    by_cases h0 : n % b.mant = 0
    · rw [hst, if_pos h0, e0]
      generalize b.mant * (n / b.mant) = T at hdm
      omega
    · rw [hst, if_neg h0, e1]
      have := hmbK h0
      generalize b.mant * (n / b.mant) = T at hdm
      omega
  have hN1q : ((2 * (n / b.mant) + st : Nat) : ℚ) * b.mant * 2199023255552 ≤
      2 * n * 2199023255552 + 2 * n := by exact_mod_cast hN1
  have hN2q : 2 * (n : ℚ) * 2199023255552 ≤
      ((2 * (n / b.mant) + st : Nat) : ℚ) * b.mant * 2199023255552 + 2 * n := by
    exact_mod_cast hN2
  generalize (2 * (n / b.mant) + st) = m' at hr hN1q hN2q
  generalize hXdef : a.absRat / b.absRat = X at hx hX ⊢
  have hXnn : 0 ≤ X := by
    rw [hX]
    positivity
  -- `Y = m' * c` against `X = 2n / mb * c`
  have hY1 : (m' : ℚ) * 2 ^ (a.expo - b.expo - 65) ≤ X + X / 2199023255552 := by
    rw [hX]
    have : (m' : ℚ) ≤ 2 * n / b.mant + 2 * n / b.mant / 2199023255552 := by
      rw [show 2 * (n : ℚ) / b.mant + 2 * n / b.mant / 2199023255552 =
        (2 * n * 2199023255552 + 2 * n) / (b.mant * 2199023255552) by field_simp; ring,
        le_div_iff₀ (by positivity)]
      linarith
    have := mul_le_mul_of_nonneg_right this hc.le
    linarith
  have hY2 : X - X / 2199023255552 ≤ (m' : ℚ) * 2 ^ (a.expo - b.expo - 65) := by
    rw [hX]
    have : 2 * (n : ℚ) / b.mant - 2 * n / b.mant / 2199023255552 ≤ m' := by
      rw [show 2 * (n : ℚ) / b.mant - 2 * n / b.mant / 2199023255552 =
        (2 * n * 2199023255552 - 2 * n) / (b.mant * 2199023255552) by field_simp; ring,
        div_le_iff₀ (by positivity)]
      linarith
    have := mul_le_mul_of_nonneg_right this hc.le
    linarith
  have h126 : (2 : ℚ) ^ (126 : Int) * 2 = 2 ^ (127 : Int) := by norm_num
  have hlt : (m' : ℚ) * 2 ^ (a.expo - b.expo - 65) < 2 ^ (127 : Int) := by
    have : (0 : ℚ) < 2 ^ (126 : Int) := two_zpow_pos _
    linarith
  rw [hr]
  obtain ⟨hfin, _, herr, _⟩ :=
    roundPack_spec (Bool.xor a.sign b.sign) m' (a.expo - b.expo - 65) hlt
  refine ⟨hfin, ?_⟩
  rw [abs_le] at herr ⊢
  constructor <;> linarith [herr.1, herr.2]

end F32

namespace F32

theorem expo_le (a : F32) (ha : a.isFinite = true) : a.expo ≤ 104 := by
  have ho : a.ord < 2139095040 := by simpa [isFinite] using ha
  unfold expo expField
  omega

/-- The square root of a finite nonzero operand as a rounding of an integer
square root with a sticky bit. -/
theorem sqrt_eq (a : F32) (ha : a.isFinite = true) (sa : a.sign = false) (hm : a.mant ≠ 0) :
    ∃ (h : Int) (N : Nat), 1 ≤ N ∧ N < 33554432 ∧ -75 ≤ h ∧ h ≤ 52 ∧
      (N : ℚ) * 2 ^ (2 * h) = a.absRat ∧
      sqrt a = roundPack false
        (2 * isqrt (N * 18446744073709551616) +
          (if isqrt (N * 18446744073709551616) * isqrt (N * 18446744073709551616)
              = N * 18446744073709551616 then 0 else 1)) (h - 33) := by
  have hz : a.isZero = false := isZero_of_mant_ne_zero hm
  have hlt := mant_lt a
  have hge := expo_ge a
  have hle := expo_le a ha
  have hpos : 1 ≤ a.mant := Nat.pos_of_ne_zero hm
  by_cases hodd : a.expo % 2 = 1
  · refine ⟨(a.expo - 1) / 2, 2 * a.mant, by omega, by omega,
      by omega, by omega, ?_, ?_⟩
    · have h2 : 2 * ((a.expo - 1) / 2) = a.expo - 1 := by omega
      rw [h2, absRat_def, zpow_sub₀ (by norm_num)]
      push_cast
      field_simp
      ring
    · unfold sqrt
      rw [isNaN_of_isFinite ha, hz, sa, isInf_of_isFinite ha]
      simp [hodd]
  · refine ⟨a.expo / 2, a.mant, by omega, by omega,
      by omega, by omega, ?_, ?_⟩
    · have h2 : 2 * (a.expo / 2) = a.expo := by omega
      rw [h2, absRat_def]
    · unfold sqrt
      rw [isNaN_of_isFinite ha, hz, sa, isInf_of_isFinite ha]
      simp [hodd]

/-- Rounding error of the square root of a finite operand with clear sign
bit, stated on squares. -/
theorem sqrt_spec (a : F32) (ha : a.isFinite = true) (sa : a.sign = false) :
    (sqrt a).isFinite = true ∧ (sqrt a).sign = false ∧
    (1 - 1 / 4194304) * a.absRat ≤ (sqrt a).absRat ^ 2 ∧
    (sqrt a).absRat ^ 2 ≤ (1 + 1 / 4194304) * a.absRat := by
  by_cases hm : a.mant = 0
  · have hz : a.isZero = true := by
      unfold isZero
      rw [ord_eq_zero_of_mant hm]
      rfl
    have hr : sqrt a = a := by
      unfold sqrt
      rw [isNaN_of_isFinite ha, hz]
      simp
    have h0 : a.absRat = 0 := by
      rw [absRat_def, hm]
      simp
    rw [hr, h0]
    exact ⟨ha, sa, by norm_num, by norm_num⟩
  · obtain ⟨h, N, hN1, hN2, hh1, hh2, hA, hr⟩ := sqrt_eq a ha sa hm
    obtain ⟨hs1, hs2⟩ := isqrt_spec (N * 18446744073709551616)
    generalize isqrt (N * 18446744073709551616) = r0 at hr hs1 hs2
    -- size of the integer root
    have hr32 : 4294967296 ≤ r0 := by
      by_contra hcon
      have h1 : r0 + 1 ≤ 4294967296 := by omega
      have h2 := Nat.mul_le_mul h1 h1
      omega
    have hr45 : r0 < 35184372088832 := by
      by_contra hcon
      have h1 : 35184372088832 ≤ r0 := by omega
      have h2 := Nat.mul_le_mul h1 h1
      omega
    obtain ⟨m', hm'⟩ : ∃ m' : Nat, m' = 2 * r0 +
        (if r0 * r0 = N * 18446744073709551616 then 0 else 1) := ⟨_, rfl⟩
    rw [← hm'] at hr
    have hm33 : 8589934592 ≤ m' := by
      rw [hm']
      omega
    have hm47 : m' < 140737488355328 := by
      rw [hm']
      split <;> omega
    -- the sticky significand brackets twice the exact root
    have hlo : (m' - 1) * (m' - 1) ≤ 4 * (N * 18446744073709551616) := by
      rw [hm']
      by_cases hc : r0 * r0 = N * 18446744073709551616
      · rw [if_pos hc, ← hc]
        simp only [Nat.add_zero]
        have : (2 * r0 - 1) * (2 * r0 - 1) ≤ 2 * r0 * (2 * r0) :=
          Nat.mul_le_mul (by omega) (by omega)
        calc (2 * r0 - 1) * (2 * r0 - 1) ≤ 2 * r0 * (2 * r0) := this
          _ = 4 * (r0 * r0) := by ring
      · rw [if_neg hc]
        have : (2 * r0 + 1 - 1) * (2 * r0 + 1 - 1) = 4 * (r0 * r0) := by
          rw [Nat.add_sub_cancel]
          ring
        rw [this]
        omega
    have hhi : 4 * (N * 18446744073709551616) ≤ (m' + 1) * (m' + 1) := by
      rw [hm']
      by_cases hc : r0 * r0 = N * 18446744073709551616
      · rw [if_pos hc, ← hc]
        simp only [Nat.add_zero]
        calc 4 * (r0 * r0) = 2 * r0 * (2 * r0) := by ring
          _ ≤ (2 * r0 + 1) * (2 * r0 + 1) := Nat.mul_le_mul (by omega) (by omega)
      · rw [if_neg hc]
        have : (2 * r0 + 1 + 1) * (2 * r0 + 1 + 1) = 4 * ((r0 + 1) * (r0 + 1)) := by ring
        rw [this]
        omega
    have hc : (0 : ℚ) < 2 ^ (h - 33) := two_zpow_pos _
    have hmq : (8589934592 : ℚ) ≤ m' := by exact_mod_cast hm33
    have hmq47 : (m' : ℚ) < 140737488355328 := by exact_mod_cast hm47
    have hloq : ((m' : ℚ) - 1) * (m' - 1) ≤ 4 * (N * 18446744073709551616) := by
      have h1 : ((m' - 1 : Nat) : ℚ) = (m' : ℚ) - 1 := by
        rw [Nat.cast_sub (by omega)]
        simp
      rw [← h1]
      exact_mod_cast hlo
    have hhiq : 4 * ((N : ℚ) * 18446744073709551616) ≤ ((m' : ℚ) + 1) * (m' + 1) := by
      exact_mod_cast hhi
    -- the operand in units of the result
    have hA2 : a.absRat = 4 * ((N : ℚ) * 18446744073709551616) * (2 ^ (h - 33)) ^ 2 := by
      rw [← hA]
      have : 2 * h = (h - 33) + (h - 33) + 66 := by ring
      rw [this, zpow_add₀ (by norm_num), zpow_add₀ (by norm_num)]
      norm_num
      ring
    have hc19 : (2 : ℚ) ^ (h - 33) ≤ 2 ^ (19 : Int) :=
      zpow_le_zpow_right₀ (by norm_num) (by omega)
    have hc108 : (2 : ℚ) ^ (-108 : Int) ≤ 2 ^ (h - 33) :=
      zpow_le_zpow_right₀ (by norm_num) (by omega)
    have hlt : (m' : ℚ) * 2 ^ (h - 33) < 2 ^ (127 : Int) := by
      have h1 : (m' : ℚ) * 2 ^ (h - 33) ≤ 140737488355328 * 2 ^ (19 : Int) :=
        mul_le_mul hmq47.le hc19 hc.le (by norm_num)
      have h2 : (140737488355328 : ℚ) * 2 ^ (19 : Int) < 2 ^ (127 : Int) := by norm_num
      linarith
    have hge : (2 : ℚ) ^ (-126 : Int) ≤ (m' : ℚ) * 2 ^ (h - 33) := by
      have h1 : (8589934592 : ℚ) * 2 ^ (-108 : Int) ≤ (m' : ℚ) * 2 ^ (h - 33) :=
        mul_le_mul hmq hc108 (two_zpow_pos _).le (by positivity)
      have h2 : (2 : ℚ) ^ (-126 : Int) ≤ 8589934592 * 2 ^ (-108 : Int) := by norm_num
      linarith
    obtain ⟨hfin, hsign, _, herr⟩ := roundPack_spec false m' (h - 33) hlt
    have herr2 := herr hge
    rw [hr]
    refine ⟨hfin, hsign, ?_⟩
    have hRnn := absRat_nonneg (roundPack false m' (h - 33))
    generalize (roundPack false m' (h - 33)).absRat = R at herr2 hRnn ⊢
    generalize (2 : ℚ) ^ (h - 33) = c at hc hA2 herr2
    rw [abs_le] at herr2
    have hY : (0 : ℚ) ≤ m' * c := by positivity
    have hRlo : (1 - 1 / 16777216) * (m' * c) ≤ R := by linarith [herr2.1]
    have hRhi : R ≤ (1 + 1 / 16777216) * (m' * c) := by linarith [herr2.2]
    have hR2hi : R ^ 2 ≤ ((1 + 1 / 16777216) * (m' * c)) ^ 2 :=
      pow_le_pow_left₀ hRnn hRhi 2
    have hR2lo : ((1 - 1 / 16777216) * (m' * c)) ^ 2 ≤ R ^ 2 :=
      pow_le_pow_left₀ (by positivity) hRlo 2
    have h1 : (m' : ℚ) + 1 ≤ m' * (1 + 1 / 8589934592) := by linarith
    have h2 : (m' : ℚ) * (1 - 1 / 8589934592) ≤ m' - 1 := by linarith
    have h3 : ((m' : ℚ) + 1) * (m' + 1) ≤ (m' * (1 + 1 / 8589934592)) * (m' * (1 + 1 / 8589934592)) :=
      mul_le_mul h1 h1 (by positivity) (by positivity)
    have h4 : ((m' : ℚ) * (1 - 1 / 8589934592)) * (m' * (1 - 1 / 8589934592)) ≤
        (m' - 1) * (m' - 1) :=
      mul_le_mul h2 h2 (by positivity) (by linarith)
    have hc2 : (0 : ℚ) ≤ c ^ 2 := sq_nonneg c
    have hAhi : a.absRat ≤ (1 + 1 / 8589934592) ^ 2 * (m' * c) ^ 2 := by
      rw [hA2]
      have := mul_le_mul_of_nonneg_right (le_trans hhiq h3) hc2
      calc 4 * ((N : ℚ) * 18446744073709551616) * c ^ 2
          ≤ ((m' : ℚ) * (1 + 1 / 8589934592)) * (m' * (1 + 1 / 8589934592)) * c ^ 2 := this
        _ = (1 + 1 / 8589934592) ^ 2 * (m' * c) ^ 2 := by ring
    have hAlo : (1 - 1 / 8589934592) ^ 2 * (m' * c) ^ 2 ≤ a.absRat := by
      rw [hA2]
      have := mul_le_mul_of_nonneg_right (le_trans h4 hloq) hc2
      calc (1 - 1 / 8589934592) ^ 2 * ((m' : ℚ) * c) ^ 2
          = ((m' : ℚ) * (1 - 1 / 8589934592)) * (m' * (1 - 1 / 8589934592)) * c ^ 2 := by ring
        _ ≤ 4 * ((N : ℚ) * 18446744073709551616) * c ^ 2 := this
    have hYY : (0 : ℚ) ≤ (m' * c) ^ 2 := sq_nonneg _
    rw [mul_pow] at hR2hi hR2lo
    generalize ((m' : ℚ) * c) ^ 2 = YY at hR2hi hR2lo hAhi hAlo hYY
    generalize a.absRat = A at hAhi hAlo ⊢
    norm_num at hR2hi hR2lo hAhi hAlo ⊢
    constructor <;> linarith

end F32

namespace F32

theorem two_zpow_127 : (2 : ℚ) ^ (127 : Int) = 170141183460469231731687303715884105728 := by
  norm_num

theorem two_zpow_126 : (2 : ℚ) ^ (126 : Int) = 85070591730234615865843651857942052864 := by
  norm_num

theorem two_zpow_neg_150 :
    (2 : ℚ) ^ (-150 : Int) = 1 / 1427247692705959881058285969449495136382746624 := by
  norm_num

/-- The `dpps` sum of four squares, for finite lanes of magnitude at most
`2^62`: finite, with clear sign bit, and within a relative `2^-22` plus an
absolute `2^-147` of the exact sum of squares. -/
theorem sumsq_spec (a0 a1 a2 a3 : F32)
    (h0 : a0.isFinite = true) (h1 : a1.isFinite = true)
    (h2 : a2.isFinite = true) (h3 : a3.isFinite = true)
    (b0 : a0.absRat ≤ 4611686018427387904) (b1 : a1.absRat ≤ 4611686018427387904)
    (b2 : a2.absRat ≤ 4611686018427387904) (b3 : a3.absRat ≤ 4611686018427387904) :
    (add (add (mul a0 a0) (mul a1 a1)) (add (mul a2 a2) (mul a3 a3))).isFinite = true ∧
    (add (add (mul a0 a0) (mul a1 a1)) (add (mul a2 a2) (mul a3 a3))).sign = false ∧
    |(add (add (mul a0 a0) (mul a1 a1)) (add (mul a2 a2) (mul a3 a3))).absRat -
        (a0.absRat ^ 2 + a1.absRat ^ 2 + a2.absRat ^ 2 + a3.absRat ^ 2)| ≤
      (a0.absRat ^ 2 + a1.absRat ^ 2 + a2.absRat ^ 2 + a3.absRat ^ 2) / 4194304 +
        1 / 178405961588244985132285746181186892047843328 := by
  have n0 := absRat_nonneg a0
  have n1 := absRat_nonneg a1
  have n2 := absRat_nonneg a2
  have n3 := absRat_nonneg a3
  have q0 : a0.absRat * a0.absRat ≤ 21267647932558653966460912964485513216 := by
    have := mul_le_mul b0 b0 n0 (by norm_num)
    norm_num at this
    exact this
  have q1 : a1.absRat * a1.absRat ≤ 21267647932558653966460912964485513216 := by
    have := mul_le_mul b1 b1 n1 (by norm_num)
    norm_num at this
    exact this
  have q2 : a2.absRat * a2.absRat ≤ 21267647932558653966460912964485513216 := by
    have := mul_le_mul b2 b2 n2 (by norm_num)
    norm_num at this
    exact this
  have q3 : a3.absRat * a3.absRat ≤ 21267647932558653966460912964485513216 := by
    have := mul_le_mul b3 b3 n3 (by norm_num)
    norm_num at this
    exact this
  have p0 : 0 ≤ a0.absRat * a0.absRat := mul_nonneg n0 n0
  have p1 : 0 ≤ a1.absRat * a1.absRat := mul_nonneg n1 n1
  have p2 : 0 ≤ a2.absRat * a2.absRat := mul_nonneg n2 n2
  have p3 : 0 ≤ a3.absRat * a3.absRat := mul_nonneg n3 n3
  obtain ⟨f0, s0, e0⟩ := mul_spec a0 a0 h0 h0 (by rw [two_zpow_127]; linarith)
  obtain ⟨f1, s1, e1⟩ := mul_spec a1 a1 h1 h1 (by rw [two_zpow_127]; linarith)
  obtain ⟨f2, s2, e2⟩ := mul_spec a2 a2 h2 h2 (by rw [two_zpow_127]; linarith)
  obtain ⟨f3, s3, e3⟩ := mul_spec a3 a3 h3 h3 (by rw [two_zpow_127]; linarith)
  rw [Bool.xor_self] at s0 s1 s2 s3
  rw [two_zpow_neg_150, abs_le] at e0 e1 e2 e3
  have m0 := absRat_nonneg (mul a0 a0)
  have m1 := absRat_nonneg (mul a1 a1)
  have m2 := absRat_nonneg (mul a2 a2)
  have m3 := absRat_nonneg (mul a3 a3)
  obtain ⟨f01, s01, e01⟩ := add_spec (mul a0 a0) (mul a1 a1) f0 f1 s0 s1
    (by rw [two_zpow_127]; linarith [e0.2, e1.2])
  obtain ⟨f23, s23, e23⟩ := add_spec (mul a2 a2) (mul a3 a3) f2 f3 s2 s3
    (by rw [two_zpow_127]; linarith [e2.2, e3.2])
  rw [two_zpow_neg_150, abs_le] at e01 e23
  obtain ⟨fs, ss, es⟩ := add_spec _ _ f01 f23 s01 s23
    (by rw [two_zpow_127]; linarith [e0.2, e1.2, e2.2, e3.2, e01.2, e23.2])
  rw [two_zpow_neg_150, abs_le] at es
  refine ⟨fs, ss, ?_⟩
  rw [abs_le]
  simp only [pow_two]
  constructor <;> linarith [e0.1, e0.2, e1.1, e1.2, e2.1, e2.2, e3.1, e3.2, e01.1, e01.2,
    e23.1, e23.2, es.1, es.2]

end F32

/-- Squaring a value known up to a relative `2^-23` and a small absolute
error. -/
theorem sq_err (y u η : ℚ) (hy0 : 0 ≤ y) (hy2 : y ≤ 2) (hu0 : 0 ≤ u)
    (hη0 : 0 ≤ η) (hη1 : η ≤ 1 / 2)
    (h1 : y - (y / 8388608 + η) ≤ u) (h2 : u ≤ y + (y / 8388608 + η)) :
    (1 - 1 / 8388608) ^ 2 * y ^ 2 - 5 * η ≤ u ^ 2 ∧
    u ^ 2 ≤ (1 + 1 / 8388608) ^ 2 * y ^ 2 + 5 * η := by
  have hηη : η * η ≤ η * (1 / 2) := mul_le_mul_of_nonneg_left hη1 hη0
  have hηη0 : 0 ≤ η * η := mul_nonneg hη0 hη0
  have hyη : 0 ≤ y * η := mul_nonneg hy0 hη0
  have hyη2 : y * η ≤ 2 * η := mul_le_mul_of_nonneg_right hy2 hη0
  constructor
  · by_cases hc : 0 ≤ (1 - 1 / 8388608) * y - η
    · have h3 : (1 - 1 / 8388608) * y - η ≤ u := by linarith
      have h4 := pow_le_pow_left₀ hc h3 2
      have h5 : ((1 - 1 / 8388608) * y - η) ^ 2 =
          (1 - 1 / 8388608) ^ 2 * y ^ 2 - 2 * (1 - 1 / 8388608) * (y * η) + η * η := by ring
      rw [h5] at h4
      linarith
    · have h3 : (1 - 1 / 8388608) * y < η := by linarith
      have h4 : 0 ≤ (1 - 1 / 8388608) * y := by positivity
      have h5 := pow_le_pow_left₀ h4 h3.le 2
      have h6 : ((1 - 1 / 8388608) * y) ^ 2 = (1 - 1 / 8388608) ^ 2 * y ^ 2 := by ring
      have h7 : η ^ 2 = η * η := by ring
      rw [h6, h7] at h5
      have h8 : 0 ≤ u ^ 2 := sq_nonneg u
      linarith
  · have h3 : u ≤ (1 + 1 / 8388608) * y + η := by linarith
    have h4 := pow_le_pow_left₀ hu0 h3 2
    have h5 : ((1 + 1 / 8388608) * y + η) ^ 2 =
        (1 + 1 / 8388608) ^ 2 * y ^ 2 + 2 * (1 + 1 / 8388608) * (y * η) + η * η := by ring
    rw [h5] at h4
    linarith

/-- A nonnegative number whose square is close to 1 is close to 1. -/
theorem near_one_of_sq (l : ℚ) (hl : 0 ≤ l) (h1 : 1 - 15 / 8388608 ≤ l ^ 2)
    (h2 : l ^ 2 ≤ 1 + 16 / 8388608) : |l - 1| ≤ 1 / 1048576 := by
  rw [abs_le]
  constructor
  · by_contra hc
    have h3 : l < 1 - 1 / 1048576 := by linarith
    have h4 := pow_le_pow_left₀ hl h3.le 2
    norm_num at h4 h1
    linarith
  · by_contra hc
    have h3 : 1 + 1 / 1048576 < l := by linarith
    have h4 := pow_le_pow_left₀ (by norm_num : (0 : ℚ) ≤ 1 + 1 / 1048576) h3.le 2
    norm_num at h4 h2
    linarith

/-- The squared norm against the exact sum of squares `S`: `sh` is the
computed sum of squares and `N2` the square of its computed root. -/
theorem norm_sq_bounds (S sh N2 : ℚ)
    (hbig : 1 / 21267647932558653966460912964485513216 ≤ S)
    (e1 : -(S / 4194304 + 1 / 178405961588244985132285746181186892047843328) ≤ sh - S)
    (e2 : sh - S ≤ S / 4194304 + 1 / 178405961588244985132285746181186892047843328)
    (r1 : (1 - 1 / 4194304) * sh ≤ N2) (r2 : N2 ≤ (1 + 1 / 4194304) * sh) :
    (1 - 6 / 8388608) * S ≤ N2 ∧ N2 ≤ (1 + 6 / 8388608) * S := by
  constructor <;> linarith

/-- The exact sum `W` of the squared quotients. -/
theorem quotient_sq_bounds (S N2 : ℚ) (hS : 0 < S) (hN : 0 < N2)
    (h1 : (1 - 6 / 8388608) * S ≤ N2) (h2 : N2 ≤ (1 + 6 / 8388608) * S) :
    1 - 6 / 8388608 ≤ S / N2 ∧ S / N2 ≤ 1 + 7 / 8388608 := by
  constructor
  · rw [le_div_iff₀ hN]
    linarith
  · rw [div_le_iff₀ hN]
    linarith

/-- The squared length against the exact squared quotients: `u0..u3` are the
squares of the computed lanes, `th` their computed sum, `L2` the square of its
computed root. -/
theorem length_sq_bounds (w0 w1 w2 w3 u0 u1 u2 u3 th L2 : ℚ)
    (hW1 : 1 - 6 / 8388608 ≤ w0 + w1 + w2 + w3) (hW2 : w0 + w1 + w2 + w3 ≤ 1 + 7 / 8388608)
    (lo0 : (1 - 1 / 8388608) ^ 2 * w0
      - 5 * (1 / 1427247692705959881058285969449495136382746624) ≤ u0)
    (hi0 : u0 ≤ (1 + 1 / 8388608) ^ 2 * w0
      + 5 * (1 / 1427247692705959881058285969449495136382746624))
    (lo1 : (1 - 1 / 8388608) ^ 2 * w1
      - 5 * (1 / 1427247692705959881058285969449495136382746624) ≤ u1)
    (hi1 : u1 ≤ (1 + 1 / 8388608) ^ 2 * w1
      + 5 * (1 / 1427247692705959881058285969449495136382746624))
    (lo2 : (1 - 1 / 8388608) ^ 2 * w2
      - 5 * (1 / 1427247692705959881058285969449495136382746624) ≤ u2)
    (hi2 : u2 ≤ (1 + 1 / 8388608) ^ 2 * w2
      + 5 * (1 / 1427247692705959881058285969449495136382746624))
    (lo3 : (1 - 1 / 8388608) ^ 2 * w3
      - 5 * (1 / 1427247692705959881058285969449495136382746624) ≤ u3)
    (hi3 : u3 ≤ (1 + 1 / 8388608) ^ 2 * w3
      + 5 * (1 / 1427247692705959881058285969449495136382746624))
    (e1 : -((u0 + u1 + u2 + u3) / 4194304
      + 1 / 178405961588244985132285746181186892047843328) ≤ th - (u0 + u1 + u2 + u3))
    (e2 : th - (u0 + u1 + u2 + u3) ≤ (u0 + u1 + u2 + u3) / 4194304
      + 1 / 178405961588244985132285746181186892047843328)
    (r1 : (1 - 1 / 4194304) * th ≤ L2) (r2 : L2 ≤ (1 + 1 / 4194304) * th) :
    1 - 15 / 8388608 ≤ L2 ∧ L2 ≤ 1 + 16 / 8388608 := by
  norm_num at lo0 hi0 lo1 hi1 lo2 hi2 lo3 hi3
  constructor <;> linarith

namespace F32

/-- One lane of `Unit`: the quotient of a finite lane by the finite nonzero
norm, when the exact quotient is at most 2. -/
theorem unit_lane (a n : F32) (ha : a.isFinite = true) (hn : n.isFinite = true)
    (hn0 : n.mant ≠ 0) (hy : a.absRat / n.absRat ≤ 2) :
    (div a n).isFinite = true ∧ (div a n).absRat ≤ 4611686018427387904 ∧
    (1 - 1 / 8388608) ^ 2 * (a.absRat / n.absRat) ^ 2
        - 5 * (1 / 1427247692705959881058285969449495136382746624) ≤ (div a n).absRat ^ 2 ∧
    (div a n).absRat ^ 2 ≤ (1 + 1 / 8388608) ^ 2 * (a.absRat / n.absRat) ^ 2
        + 5 * (1 / 1427247692705959881058285969449495136382746624) := by
  have hy0 : 0 ≤ a.absRat / n.absRat := div_nonneg (absRat_nonneg a) (absRat_nonneg n)
  obtain ⟨hf, he⟩ := div_spec a n ha hn hn0 (by rw [two_zpow_126]; linarith)
  rw [two_zpow_neg_150, abs_le] at he
  have hu0 := absRat_nonneg (div a n)
  obtain ⟨s1, s2⟩ := sq_err (a.absRat / n.absRat) (div a n).absRat
    (1 / 1427247692705959881058285969449495136382746624) hy0 hy hu0 (by norm_num)
    (by norm_num) (by linarith [he.1]) (by linarith [he.2])
  refine ⟨hf, ?_, s1, s2⟩
  linarith [he.2]

/-- The length of the normalised lanes: for finite lanes of magnitude at most
`2^62` whose sum of squares is at least `2^-124`, the computed length of the
computed unit vector is within `2^-20` of 1. -/
theorem norm_chain (a0 a1 a2 a3 : F32)
    (h0 : a0.isFinite = true) (h1 : a1.isFinite = true)
    (h2 : a2.isFinite = true) (h3 : a3.isFinite = true)
    (b0 : a0.absRat ≤ 4611686018427387904) (b1 : a1.absRat ≤ 4611686018427387904)
    (b2 : a2.absRat ≤ 4611686018427387904) (b3 : a3.absRat ≤ 4611686018427387904)
    (hbig : 1 / 21267647932558653966460912964485513216 ≤
      a0.absRat ^ 2 + a1.absRat ^ 2 + a2.absRat ^ 2 + a3.absRat ^ 2)
    (n : F32)
    (hn : n = sqrt (add (add (mul a0 a0) (mul a1 a1)) (add (mul a2 a2) (mul a3 a3))))
    (l : F32)
    (hl : l = sqrt (add (add (mul (div a0 n) (div a0 n)) (mul (div a1 n) (div a1 n)))
      (add (mul (div a2 n) (div a2 n)) (mul (div a3 n) (div a3 n))))) :
    l.isFinite = true ∧ l.sign = false ∧ |l.absRat - 1| ≤ 1 / 1048576 := by
  -- the sum of squares
  obtain ⟨fs, ss, es⟩ := sumsq_spec a0 a1 a2 a3 h0 h1 h2 h3 b0 b1 b2 b3
  generalize add (add (mul a0 a0) (mul a1 a1)) (add (mul a2 a2) (mul a3 a3)) = s
    at fs ss es hn
  rw [abs_le] at es
  -- the norm
  obtain ⟨fn, sn, en1, en2⟩ := sqrt_spec s fs ss
  rw [← hn] at fn sn en1 en2
  obtain ⟨hN1, hN2⟩ := norm_sq_bounds _ _ _ hbig es.1 es.2 en1 en2
  have hSpos : 0 < a0.absRat ^ 2 + a1.absRat ^ 2 + a2.absRat ^ 2 + a3.absRat ^ 2 :=
    lt_of_lt_of_le (by norm_num) hbig
  have hN2pos : 0 < n.absRat ^ 2 :=
    lt_of_lt_of_le (mul_pos (by norm_num) hSpos) hN1
  have hNne : n.absRat ≠ 0 := by
    intro hc
    rw [hc] at hN2pos
    norm_num at hN2pos
  have hnm : n.mant ≠ 0 := by
    intro hc
    apply hNne
    rw [absRat_def, hc]
    simp
  -- the exact quotients
  have hW : (a0.absRat / n.absRat) ^ 2 + (a1.absRat / n.absRat) ^ 2 +
      (a2.absRat / n.absRat) ^ 2 + (a3.absRat / n.absRat) ^ 2 =
      (a0.absRat ^ 2 + a1.absRat ^ 2 + a2.absRat ^ 2 + a3.absRat ^ 2) / n.absRat ^ 2 := by
    field_simp
  obtain ⟨hW1, hW2⟩ := quotient_sq_bounds _ _ hSpos hN2pos hN1 hN2
  rw [← hW] at hW1 hW2
  have y0 := div_nonneg (absRat_nonneg a0) (absRat_nonneg n)
  have y1 := div_nonneg (absRat_nonneg a1) (absRat_nonneg n)
  have y2 := div_nonneg (absRat_nonneg a2) (absRat_nonneg n)
  have y3 := div_nonneg (absRat_nonneg a3) (absRat_nonneg n)
  have z0 := sq_nonneg (a0.absRat / n.absRat)
  have z1 := sq_nonneg (a1.absRat / n.absRat)
  have z2 := sq_nonneg (a2.absRat / n.absRat)
  have z3 := sq_nonneg (a3.absRat / n.absRat)
  have htwo : ∀ y : ℚ, 0 ≤ y → y ^ 2 ≤ 4 → y ≤ 2 := by
    intro y hy hsq
    by_contra hc
    have h5 : (2 : ℚ) < y := not_le.mp hc
    nlinarith
  have t0 : (a0.absRat / n.absRat) ^ 2 ≤ 4 := by linarith only [hW2, z1, z2, z3]
  have t1 : (a1.absRat / n.absRat) ^ 2 ≤ 4 := by linarith only [hW2, z0, z2, z3]
  have t2 : (a2.absRat / n.absRat) ^ 2 ≤ 4 := by linarith only [hW2, z0, z1, z3]
  have t3 : (a3.absRat / n.absRat) ^ 2 ≤ 4 := by linarith only [hW2, z0, z1, z2]
  -- the lanes of the unit vector
  obtain ⟨f0, c0, lo0, hi0⟩ := unit_lane a0 n h0 fn hnm (htwo _ y0 t0)
  obtain ⟨f1, c1, lo1, hi1⟩ := unit_lane a1 n h1 fn hnm (htwo _ y1 t1)
  obtain ⟨f2, c2, lo2, hi2⟩ := unit_lane a2 n h2 fn hnm (htwo _ y2 t2)
  obtain ⟨f3, c3, lo3, hi3⟩ := unit_lane a3 n h3 fn hnm (htwo _ y3 t3)
  -- its sum of squares and length
  obtain ⟨ft, st, et⟩ := sumsq_spec (div a0 n) (div a1 n) (div a2 n) (div a3 n)
    f0 f1 f2 f3 c0 c1 c2 c3
  generalize add (add (mul (div a0 n) (div a0 n)) (mul (div a1 n) (div a1 n)))
    (add (mul (div a2 n) (div a2 n)) (mul (div a3 n) (div a3 n))) = t at ft st et hl
  rw [abs_le] at et
  obtain ⟨fl, sl, el1, el2⟩ := sqrt_spec t ft st
  rw [← hl] at fl sl el1 el2
  obtain ⟨g1, g2⟩ := length_sq_bounds _ _ _ _ _ _ _ _ _ _ hW1 hW2 lo0 hi0 lo1 hi1 lo2 hi2
    lo3 hi3 et.1 et.2 el1 el2
  exact ⟨fl, sl, near_one_of_sq _ (absRat_nonneg l) g1 g2⟩

end F32

/-! ## Claim C14 -/

theorem F32.absRat_eq_zero_of_isZero {a : F32} (h : a.isZero = true) : a.absRat = 0 := by
  have h0 : a.ord = 0 := by simpa [F32.isZero] using h
  have hm : a.mant = 0 := by
    unfold F32.mant F32.expField F32.manField
    rw [h0]
    rfl
  rw [F32.absRat_def, hm]
  simp

/-- Outside the zero guard `Unit` returns the lanes divided by the norm. -/
theorem Vector4.Unit_of_not_allZero (v : Vector4) (hz : Spec.allZero v = false) :
    v.Unit = Spec.unitScaled v := by
  unfold Vector4.Unit Vector4.UnitCall
  have hg : _mm_movemask_ps (_mm_cmpeq_ps v._sse _mm_setzero_ps) ≠ 15 := by
    intro h
    rw [(Vector4.zero_guard v).mp h] at hz
    exact absurd hz (by decide)
  rw [if_pos hg, dp_ps_255]
  rfl

/-- The length as the square root of the `dpps` sum of squares. -/
theorem Vector4.Length_eq (v : Vector4) :
    v.Length = F32.sqrt (F32.add (F32.add (F32.mul v.x v.x) (F32.mul v.y v.y))
      (F32.add (F32.mul v.z v.z) (F32.mul v.w v.w))) := by
  unfold Vector4.Length SSE.DP_MASK_V4
  rw [dp_ps_255]
  rfl

/-- C14 (as stated, refuted): no bound below 1 holds for every nonzero
vector; for `Vector4(0x1p100f, 0, 0, 0)` the squares overflow, `Unit()` is the
zero vector and its length is `0.0f`. -/
theorem C14_unit_length_overflow :
    ¬ ∃ eps : ℚ, eps < 1 ∧
      ∀ v : Vector4, Spec.allZero v = false → Spec.withinOne v.Unit.Length eps = true := by
  rintro ⟨eps, he, h⟩
  have h1 := h vBig (by decide)
  have hL : vBig.Unit.Length = f32_0 := by decide!
  have h0 : f32_0.toRat = 0 := by decide!
  rw [hL] at h1
  unfold Spec.withinOne at h1
  rw [h0] at h1
  simp only [Bool.and_eq_true, decide_eq_true_eq] at h1
  have h2 := h1.2
  norm_num at h2
  linarith

/-- C14 (amended): for every vector whose lanes are finite with magnitude at
most `2^62` and with some lane of magnitude at least `2^-62`,
`v.Unit().Length()` is finite and within `2^-20` of 1.0. -/
theorem C14_unit_length_moderate (v : Vector4) (h : Spec.moderate v = true) :
    Spec.withinOne v.Unit.Length (1 / 1048576) = true := by
  simp only [Spec.moderate, Spec.allFinite, Bool.and_eq_true, Bool.or_eq_true,
    decide_eq_true_eq] at h
  obtain ⟨⟨⟨⟨⟨⟨⟨⟨fx, fy⟩, fz⟩, fw⟩, bx⟩, by'⟩, bz⟩, bw⟩, hex⟩ := h
  have nx := F32.absRat_nonneg v.x
  have ny := F32.absRat_nonneg v.y
  have nz := F32.absRat_nonneg v.z
  have nw := F32.absRat_nonneg v.w
  have sx := sq_nonneg v.x.absRat
  have sy := sq_nonneg v.y.absRat
  have sz := sq_nonneg v.z.absRat
  have sw := sq_nonneg v.w.absRat
  have hsq : ∀ y : ℚ, 1 / 4611686018427387904 ≤ y →
      1 / 21267647932558653966460912964485513216 ≤ y ^ 2 := by
    intro y hy
    have := pow_le_pow_left₀ (by norm_num) hy 2
    norm_num at this ⊢
    exact this
  have hbig : 1 / 21267647932558653966460912964485513216 ≤
      v.x.absRat ^ 2 + v.y.absRat ^ 2 + v.z.absRat ^ 2 + v.w.absRat ^ 2 := by
    rcases hex with ((hx | hx) | hx) | hx
    · linarith only [hsq _ hx, sx, sy, sz, sw]
    · linarith only [hsq _ hx, sx, sy, sz, sw]
    · linarith only [hsq _ hx, sx, sy, sz, sw]
    · linarith only [hsq _ hx, sx, sy, sz, sw]
  have hz : Spec.allZero v = false := by
    cases hc : Spec.allZero v
    · rfl
    · exfalso
      simp only [Spec.allZero, Bool.and_eq_true] at hc
      have e0 := F32.absRat_eq_zero_of_isZero hc.1.1.1
      have e1 := F32.absRat_eq_zero_of_isZero hc.1.1.2
      have e2 := F32.absRat_eq_zero_of_isZero hc.1.2
      have e3 := F32.absRat_eq_zero_of_isZero hc.2
      rw [e0, e1, e2, e3] at hbig
      norm_num at hbig
  obtain ⟨fl, sl, el⟩ := F32.norm_chain v.x v.y v.z v.w fx fy fz fw bx by' bz bw hbig _ rfl
    (Vector4.Length (Vector4.Unit v)) (by
      rw [Vector4.Unit_of_not_allZero v hz, Vector4.Length_eq]
      rfl)
  unfold Spec.withinOne F32.toRat
  rw [fl, sl]
  simpa using el

theorem C14_unit_length_moderate_witness :
    Spec.moderate v1234 = true ∧ Spec.withinOne v1234.Unit.Length (1 / 1048576) = true :=
  ⟨by decide!, C14_unit_length_moderate v1234 (by decide!)⟩

end MyWordle
